import Mathlib

/-!
# Verification of the GitHub pull-request dashboard aggregation core

This file gives a shallow embedding, in Lean 4, of the aggregation engine in
`src/lib/github-prs.ts`: the authenticated GET wrapper (`fetchGitHub`), the
exhaustive pagination loops (`listAccessibleRepos`, `listRepoOpenPullRequests`),
the bounded-concurrency fan-out (`mapWithConcurrency`), and the top-level
aggregation (`fetchDashboardPullRequests`) that merges per-account repository
and pull-request results into global deduplicated collections.

Modelling conventions:
* network effects are abstracted as explicit environment functions; fallible
  remote calls return `Except String`;
* JavaScript `Map` objects (which preserve insertion order and have unique
  keys) are modelled as association lists with first-match lookup;
* JavaScript `Set` objects of account names are modelled as duplicate-free
  lists in insertion order (`addIfAbsent`);
* the cooperative-concurrency worker pool is modelled as a small-step state
  machine driven by an arbitrary scheduler, quantified over all schedules;
* `localeCompare`-based sorting is modelled by the lexicographic order on
  `String`.
-/

set_option maxHeartbeats 1600000
set_option maxRecDepth 8000

namespace GithubChan

/-! ## Data model (the TypeScript record types) -/

/-- The inline `{ login: string }` owner / user record. -/
structure Owner where
  login : String
deriving DecidableEq, Repr

/-- `OrgRepo`: one repository as returned by the repository-discovery endpoint. -/
structure OrgRepo where
  name : String
  full_name : String
  html_url : String
  owner : Owner
  «private» : Bool
  visibility : String
  archived : Bool
  has_issues : Bool
  open_issues_count : Nat
  updated_at : String
  default_branch : String
deriving DecidableEq, Repr

/-- `RepoPullRequest`: one pull request as returned by the pulls endpoint;
`user` is nullable. -/
structure RepoPullRequest where
  number : Nat
  title : String
  html_url : String
  draft : Bool
  created_at : String
  user : Option Owner
deriving DecidableEq, Repr

/-- `DashboardPullRequest`: the merged output pull-request record. -/
structure DashboardPullRequest where
  id : String
  organization : String
  repository : String
  repositoryFullName : String
  number : Nat
  title : String
  url : String
  author : String
  draft : Bool
  createdAt : String
  account : String
deriving DecidableEq, Repr

/-- `MutableDashboardRepository`: the in-flight repository record whose
`accounts` set is still mutable (a JS `Set`, modelled as a duplicate-free
insertion-ordered list). -/
structure MutableDashboardRepository where
  id : String
  organization : String
  name : String
  fullName : String
  url : String
  «private» : Bool
  visibility : String
  archived : Bool
  openIssuesCount : Nat
  openPullRequestCount : Nat
  updatedAt : String
  defaultBranch : String
  accounts : List String
deriving DecidableEq, Repr

/-- `DashboardRepository`: the final output repository record, whose
`accounts` field is a sorted array. -/
structure DashboardRepository where
  id : String
  organization : String
  name : String
  fullName : String
  url : String
  «private» : Bool
  visibility : String
  archived : Bool
  openIssuesCount : Nat
  openPullRequestCount : Nat
  updatedAt : String
  defaultBranch : String
  accounts : List String
deriving DecidableEq, Repr

/-- One configured account (from the config collaborator's output). -/
structure Account where
  name : String
  organizations : List String
  token : String
deriving DecidableEq, Repr

/-! ## `fetchGitHub`: the authenticated GET wrapper -/

/-- `GitHubResponseError`: the error body shape, with an optional `message`. -/
structure GitHubResponseError where
  message : Option String
deriving DecidableEq, Repr

/-- A model of one HTTP response: the `ok` flag and numeric `status` of the
response, the parse of the body as a `GitHubResponseError` on the failure
path (`none` when the body cannot be parsed), and the parsed JSON body on
the success path. -/
structure HttpResponse (T : Type) where
  ok : Bool
  status : Nat
  errorBody : Option GitHubResponseError
  body : T
deriving DecidableEq, Repr

/-- The fallback message used when the error body cannot be parsed. -/
def unknownErrorFallback : String := "Unknown GitHub API error"

/-- The thrown error message: `GitHub API ${status} for "${path}": ${message}`. -/
def apiErrorMessage (status : Nat) (path msg : String) : String :=
  "GitHub API " ++ toString status ++ " for \"" ++ path ++ "\": " ++ msg

/-- `fetchGitHub` (src/lib/github-prs.ts:252-272): on a non-`ok` response,
throw an error carrying the status, path, and the error body's `message`
(falling back when absent or unparsable); otherwise return the parsed body. -/
def fetchGitHub {T : Type} (path : String) (response : HttpResponse T) :
    Except String T :=
  if !response.ok then
    let message :=
      (response.errorBody.bind (fun b => b.message)).getD unknownErrorFallback
    .error (apiErrorMessage response.status path message)
  else
    .ok response.body

/-! ## Pagination (`listAccessibleRepos` / `listRepoOpenPullRequests`)

Both listing functions run the same loop: request page 1, 2, 3, … with a
fixed page size, concatenating batches, stopping at the first batch shorter
than the page size.  `paginate` abstracts the loop over a page-level API
`api : Nat → Except String (List α)` and also records the sequence of page
numbers requested; `fuel` bounds the number of iterations (the source loop
is unbounded; every theorem below supplies enough fuel). -/

def PAGE_SIZE : Nat := 100

/-- The pagination loop body, carrying accumulated items and requested pages. -/
def paginateGo (api : Nat → Except String (List α)) :
    Nat → Nat → List α → List Nat → Option (Except String (List α) × List Nat)
  | 0, _, _, _ => none
  | fuel + 1, page, acc, reqs =>
    match api page with
    | .error e => some (.error e, reqs ++ [page])
    | .ok batch =>
      if batch.length < PAGE_SIZE then some (.ok (acc ++ batch), reqs ++ [page])
      else paginateGo api fuel (page + 1) (acc ++ batch) (reqs ++ [page])

/-- The pagination loop of `listAccessibleRepos` (src/lib/github-prs.ts:274-290)
and `listRepoOpenPullRequests` (292-312): starts at page 1 with no items. -/
def paginate (api : Nat → Except String (List α)) (fuel : Nat) :
    Option (Except String (List α) × List Nat) :=
  paginateGo api fuel 1 [] []

/-! ## Association-list model of JavaScript `Map` -/

/-- Lookup: first entry with the given key (JS `Map.get`). -/
def mapGet (m : List (String × V)) (k : String) : Option V :=
  (m.find? (fun kv => kv.1 == k)).map (fun kv => kv.2)

/-- In-place update of the first entry with the given key; no-op when absent. -/
def mapUpdate (m : List (String × V)) (k : String) (f : V → V) :
    List (String × V) :=
  match m with
  | [] => []
  | kv :: rest =>
    if kv.1 == k then (kv.1, f kv.2) :: rest else kv :: mapUpdate rest k f

/-! ## `mapWithConcurrency` (src/lib/github-prs.ts:314-337)

The worker pool is modelled as a small-step state machine.  Each worker is
either `idle` (about to test the shared cursor), `fetching i` (it has
atomically claimed index `i` — cursor test, read and increment happen with
no intervening suspension point in the source — and its `mapper` call is in
flight), or `done` (it observed an exhausted cursor and returned).  A
schedule is an arbitrary list of worker indices; each entry lets that worker
run to its next suspension point.  Quantifying theorems over all schedules
covers every interleaving of the cooperative scheduler. -/

inductive WorkerState where
  | idle : WorkerState
  | fetching : Nat → WorkerState
  | done : WorkerState
deriving DecidableEq, Repr

structure PoolState (R : Type) where
  nextIndex : Nat
  results : List (Option R)
  workers : List WorkerState
deriving DecidableEq, Repr

/-- One atomic step of worker `w`:
* `idle` with `nextIndex < items.length`: claim `nextIndex` and advance it;
* `idle` with the cursor exhausted: exit the loop (`done`);
* `fetching i`: the awaited `mapper(items[i])` resolves and is stored at
  index `i`; the worker returns to the loop head (`idle`). -/
def stepWorker (items : List T) (f : T → R) (s : PoolState R) (w : Nat) :
    PoolState R :=
  match s.workers[w]? with
  | none => s
  | some .idle =>
    if s.nextIndex < items.length then
      { s with nextIndex := s.nextIndex + 1,
               workers := s.workers.set w (.fetching s.nextIndex) }
    else
      { s with workers := s.workers.set w .done }
  | some (.fetching i) =>
    { s with results := s.results.set i ((items[i]?).map f),
             workers := s.workers.set w .idle }
  | some .done => s

/-- The initial pool: a pre-sized results array and
`min(limit, items.length)` idle workers (src/lib/github-prs.ts:319,330-333). -/
def initPool (R : Type) (items : List T) (limit : Nat) : PoolState R :=
  { nextIndex := 0,
    results := List.replicate items.length none,
    workers := List.replicate (min limit items.length) .idle }

/-- Run the pool under a schedule. -/
def runPool (items : List T) (f : T → R) (s : PoolState R)
    (sched : List Nat) : PoolState R :=
  sched.foldl (stepWorker items f) s

/-! ## The aggregation engine (`fetchDashboardPullRequests`)

The network is abstracted as an `Env` holding the two listing functions the
aggregator calls (each of which is, in the source, a `paginate` loop over
`fetchGitHub`). -/

structure Env where
  listAccessibleRepos : String → Except String (List OrgRepo)
  listRepoOpenPullRequests : String → String → String → Except String (List RepoPullRequest)

abbrev RepoMap := List (String × MutableDashboardRepository)
abbrev PRMap := List (String × DashboardPullRequest)

/-- JS `Set.add` on the insertion-ordered duplicate-free list of names. -/
def addIfAbsent (accs : List String) (name : String) : List String :=
  if name ∈ accs then accs else accs ++ [name]

/-- The fresh repository entry created on first sighting
(src/lib/github-prs.ts:370-384): seeded from the discovered repository, with
`openPullRequestCount` zero and a singleton `accounts` set. -/
def seedRepository (repo : OrgRepo) (accountName : String) :
    MutableDashboardRepository :=
  { id := repo.full_name
    organization := repo.owner.login
    name := repo.name
    fullName := repo.full_name
    url := repo.html_url
    «private» := repo.«private»
    visibility := repo.visibility
    archived := repo.archived
    openIssuesCount := repo.open_issues_count
    openPullRequestCount := 0
    updatedAt := repo.updated_at
    defaultBranch := repo.default_branch
    accounts := [accountName] }

/-- Merging one discovered repository into the global repository map
(src/lib/github-prs.ts:363-385): if the full-name key exists, add the
account name to its `accounts` set; otherwise insert a fresh seeded entry. -/
def mergeRepo (m : RepoMap) (accountName : String) (repo : OrgRepo) : RepoMap :=
  match mapGet m repo.full_name with
  | some _ =>
    mapUpdate m repo.full_name
      (fun e => { e with accounts := addIfAbsent e.accounts accountName })
  | none => m ++ [(repo.full_name, seedRepository repo accountName)]

/-- `repositories.forEach(...)`: fold the merge over the discovered list. -/
def mergeRepositories (m : RepoMap) (accountName : String)
    (repos : List OrgRepo) : RepoMap :=
  repos.foldl (fun acc r => mergeRepo acc accountName r) m

/-- The candidate filter (src/lib/github-prs.ts:387-389): not archived,
issues enabled, and a positive reported open-issue count. -/
def candidateFilter (repo : OrgRepo) : Bool :=
  !repo.archived && repo.has_issues && decide (repo.open_issues_count > 0)

/-- JS `String.prototype.toLowerCase`, modelled characterwise (equivalent to
Lean's `String.toLower`, which maps `Char.toLower` over the string, but
stated on the character list so that it evaluates by reduction). -/
def toLowerCase (s : String) : String := ⟨s.data.map Char.toLower⟩

/-- The organization filter applied to discovery results
(src/lib/github-prs.ts:356-361): the owner's login, lowercased, must be one
of the account's configured organizations, lowercased. -/
def orgAllowed (a : Account) (repo : OrgRepo) : Bool :=
  (a.organizations.map toLowerCase).contains (toLowerCase repo.owner.login)

/-- The per-pull-request output record built inside the fetch stage
(src/lib/github-prs.ts:409-421); `author` falls back to `"unknown"` when the
upstream `user` is null. -/
def toDashboardPR (repo : OrgRepo) (accountName : String)
    (pr : RepoPullRequest) : DashboardPullRequest :=
  { id := repo.full_name ++ "#" ++ toString pr.number
    organization := repo.owner.login
    repository := repo.name
    repositoryFullName := repo.full_name
    number := pr.number
    title := pr.title
    url := pr.html_url
    author := (pr.user.map (fun u => u.login)).getD "unknown"
    draft := pr.draft
    createdAt := pr.created_at
    account := accountName }

/-- Record one observed per-repository open-pull-request count
(src/lib/github-prs.ts:401-407): take the maximum with the current value;
no-op when the key is absent from the map. -/
def updateCount (m : RepoMap) (k : String) (observed : Nat) : RepoMap :=
  mapUpdate m k
    (fun e => { e with openPullRequestCount :=
                  Nat.max e.openPullRequestCount observed })

/-- The per-account fetch stage (src/lib/github-prs.ts:391-423): for each
candidate repository, fetch its open pull requests, record the observed
count, and produce the per-repository batch of output records.  In the
source this runs under `mapWithConcurrency`; its result is index-aligned
with the input (proved below over all schedules), and the count updates
commute (`Nat.max`), so the sequential state-threading here computes the
same final state and batches. -/
def fetchStage (env : Env) (a : Account) :
    RepoMap → List OrgRepo →
    Except String (RepoMap × List (List DashboardPullRequest))
  | m, [] => .ok (m, [])
  | m, repo :: rest => do
    let prs ← env.listRepoOpenPullRequests repo.owner.login repo.name a.token
    let m1 := updateCount m repo.full_name prs.length
    let (m2, batches) ← fetchStage env a m1 rest
    .ok (m2, prs.map (toDashboardPR repo a.name) :: batches)

/-- First-seen-wins insertion into the global pull-request map
(src/lib/github-prs.ts:425-431). -/
def insertIfAbsent (pm : PRMap) (pr : DashboardPullRequest) : PRMap :=
  if (mapGet pm pr.id).isSome then pm else pm ++ [(pr.id, pr)]

/-- Processing one account (the body of the `for (const account of accounts)`
loop, src/lib/github-prs.ts:355-432): discover, filter to allowed
organizations, merge repositories, fetch pull requests for candidates, and
merge the batches into the global pull-request map. -/
def processAccount (env : Env) (st : RepoMap × PRMap) (a : Account) :
    Except String (RepoMap × PRMap) := do
  let reposAll ← env.listAccessibleRepos a.token
  let repositories := reposAll.filter (orgAllowed a)
  let m := mergeRepositories st.1 a.name repositories
  let cands := repositories.filter candidateFilter
  let (m2, batches) ← fetchStage env a m cands
  let pm := batches.foldl (fun pm batch => batch.foldl insertIfAbsent pm) st.2
  .ok (m2, pm)

/-- The comparator used to sort the `accounts` array, modelling the
`localeCompare` total order by the lexicographic order on the character
lists (stated on `String.data` so that it evaluates by reduction). -/
def stringLe (a b : String) : Bool := decide (a.data ≤ b.data)

/-- Materialize a repository entry for output
(src/lib/github-prs.ts:435-438): the `accounts` set becomes a sorted array
(`toSorted(localeCompare)`, modelled by the lexicographic order). -/
def finalizeRepository (v : MutableDashboardRepository) : DashboardRepository :=
  { id := v.id
    organization := v.organization
    name := v.name
    fullName := v.fullName
    url := v.url
    «private» := v.«private»
    visibility := v.visibility
    archived := v.archived
    openIssuesCount := v.openIssuesCount
    openPullRequestCount := v.openPullRequestCount
    updatedAt := v.updatedAt
    defaultBranch := v.defaultBranch
    accounts := v.accounts.mergeSort stringLe }

/-- The aggregation output record. -/
structure PullRequestDashboardData where
  configPath : String
  warnings : List String
  pullRequests : List DashboardPullRequest
  repositories : List DashboardRepository
deriving DecidableEq, Repr

/-- `fetchDashboardPullRequests` (src/lib/github-prs.ts:350-446),
parametrized by the environment and by the config collaborator's output
(accounts, configPath, warnings): process all accounts sequentially over the
two empty global maps, then materialize both maps' values in insertion
order. -/
def fetchDashboardPullRequests (env : Env) (accounts : List Account)
    (configPath : String) (warnings : List String) :
    Except String PullRequestDashboardData := do
  let (m, pm) ← accounts.foldlM (processAccount env) ([], [])
  .ok { configPath := configPath
        warnings := warnings
        pullRequests := pm.map (fun kv => kv.2)
        repositories := m.map (fun kv => finalizeRepository kv.2) }

/-! ## Derived read-only views used in theorem statements

These recompute, from the environment alone, what each account discovers and
fetches; the theorems relate the aggregator's output to them. -/

/-- The repositories account `a` discovers: its accessible-repository listing
filtered to its allowed organizations (empty on a failed listing). -/
def discoveredRepos (env : Env) (a : Account) : List OrgRepo :=
  match env.listAccessibleRepos a.token with
  | .ok rs => rs.filter (orgAllowed a)
  | .error _ => []

/-- The full names account `a` discovers. -/
def discoveredNames (env : Env) (a : Account) : List String :=
  (discoveredRepos env a).map (fun r => r.full_name)

/-- The candidate repositories of account `a`. -/
def candidateRepos (env : Env) (a : Account) : List OrgRepo :=
  (discoveredRepos env a).filter candidateFilter

/-- The open pull requests account `a` fetches for repository `r`
(empty on a failed call). -/
def prsOf (env : Env) (a : Account) (r : OrgRepo) : List RepoPullRequest :=
  match env.listRepoOpenPullRequests r.owner.login r.name a.token with
  | .ok ps => ps
  | .error _ => []

/-- The observed open-pull-request count of account `a` for repository `r`. -/
def prCountOf (env : Env) (a : Account) (r : OrgRepo) : Nat :=
  (prsOf env a r).length

/-- All per-account count observations recorded against key `k`, in
processing order. -/
def observations (env : Env) (accounts : List Account) (k : String) :
    List Nat :=
  accounts.flatMap (fun a =>
    ((candidateRepos env a).filter (fun r => r.full_name == k)).map
      (prCountOf env a))

/-- Every output pull-request record produced over the run, in processing
order (accounts in order; within an account, candidates in order; within a
candidate, pull requests in listing order). -/
def allSightings (env : Env) (accounts : List Account) :
    List DashboardPullRequest :=
  accounts.flatMap (fun a =>
    (candidateRepos env a).flatMap (fun r =>
      (prsOf env a r).map (toDashboardPR r a.name)))

/-- Account `a`'s remote calls all succeed: the discovery listing, and the
pull-request listing of each of its candidates. -/
def accountOk (env : Env) (a : Account) : Prop :=
  (env.listAccessibleRepos a.token).isOk = true ∧
  ∀ r ∈ candidateRepos env a,
    (env.listRepoOpenPullRequests r.owner.login r.name a.token).isOk = true

/-- Every remote call of the run succeeds. -/
def runOk (env : Env) (accounts : List Account) : Prop :=
  ∀ a ∈ accounts, accountOk env a

/-! ## Theorems: `fetchGitHub` (C9) -/

/-- C9: for every request path and token, when the HTTP response has a
non-success status the client call fails with an error that carries the
numeric status code, the requested path, and a human-readable message taken
from the response body's `message` field, or a fixed fallback string when
the body cannot be parsed as such; when the status is successful the call
returns the parsed JSON body. -/
theorem fetchGitHub_error_contract {T : Type} (path : String)
    (response : HttpResponse T) :
    (response.ok = false →
      fetchGitHub path response =
        .error ("GitHub API " ++ toString response.status ++ " for \"" ++
          path ++ "\": " ++
          ((response.errorBody.bind (fun b => b.message)).getD
            unknownErrorFallback))) ∧
    (response.ok = true → fetchGitHub path response = .ok response.body) := by
  constructor <;> intro h <;>
    simp [fetchGitHub, apiErrorMessage, h]

/-- Witness for C9: a concrete 404 with a parsed message yields the full
error string; a concrete 200 returns the body. -/
theorem fetchGitHub_error_contract_witness :
    fetchGitHub "/user/repos"
        { ok := false, status := 404,
          errorBody := some { message := some "Not Found" }, body := (0 : Nat) } =
      .error "GitHub API 404 for \"/user/repos\": Not Found" ∧
    fetchGitHub "/user/repos"
        { ok := true, status := 200, errorBody := none, body := (7 : Nat) } =
      .ok 7 := by
  constructor
  · exact ((fetchGitHub_error_contract "/user/repos"
      { ok := false, status := 404,
        errorBody := some { message := some "Not Found" },
        body := (0 : Nat) }).1 rfl).trans rfl
  · exact (fetchGitHub_error_contract "/user/repos"
      { ok := true, status := 200, errorBody := none, body := (7 : Nat) }).2 rfl

/-! ## Theorems: pagination (C4, and error propagation for C5) -/

/-- Running the pagination loop from page `p` when page `k` is the first
short page: the loop returns the concatenation of pages `p..k` and requests
exactly those pages. -/
theorem paginateGo_run {α : Type} (api : Nat → Except String (List α))
    (pages : Nat → List α) (k : Nat)
    (hshort : (pages k).length < PAGE_SIZE) :
    ∀ fuel p acc reqs, p ≤ k → k < p + fuel →
    (∀ j, p ≤ j → j ≤ k → api j = .ok (pages j)) →
    (∀ j, p ≤ j → j < k → PAGE_SIZE ≤ (pages j).length) →
    paginateGo api fuel p acc reqs =
      some (.ok (acc ++ ((List.range' p (k + 1 - p)).map pages).flatten),
        reqs ++ List.range' p (k + 1 - p)) := by
  intro fuel
  induction fuel with
  | zero => intro p acc reqs hpk hfuel _ _; omega
  | succ fuel ih =>
    intro p acc reqs hpk hfuel hap hfull
    have hp : api p = .ok (pages p) := hap p le_rfl hpk
    rcases Nat.eq_or_lt_of_le hpk with heq | hlt
    · have hone : k + 1 - p = 1 := by omega
      have hsp : (pages p).length < PAGE_SIZE := by rw [heq]; exact hshort
      simp [paginateGo, hp, hsp, hone, List.range'_one]
    · have hnot : ¬ (pages p).length < PAGE_SIZE := by
        exact Nat.not_lt.mpr (hfull p le_rfl hlt)
      have hrw : k + 1 - p = (k - p) + 1 := by omega
      have hrw2 : k + 1 - (p + 1) = k - p := by omega
      have hstep := ih (p + 1) (acc ++ pages p) (reqs ++ [p])
        hlt (by omega)
        (fun j h1 h2 => hap j (by omega) h2)
        (fun j h1 h2 => hfull j (by omega) h2)
      simp only [paginateGo, hp, hnot, if_false]
      rw [hstep, hrw, hrw2, List.range'_succ]
      simp [List.append_assoc]

/-- Running the pagination loop from page `p` when page `k` is the first
failing page (all earlier pages full): the loop propagates the error after
requesting pages `p..k`. -/
theorem paginateGo_error {α : Type} (api : Nat → Except String (List α))
    (pages : Nat → List α) (k : Nat) (e : String)
    (herr : api k = .error e) :
    ∀ fuel p acc reqs, p ≤ k → k < p + fuel →
    (∀ j, p ≤ j → j < k →
      api j = .ok (pages j) ∧ PAGE_SIZE ≤ (pages j).length) →
    paginateGo api fuel p acc reqs =
      some (.error e, reqs ++ List.range' p (k + 1 - p)) := by
  intro fuel
  induction fuel with
  | zero => intro p acc reqs hpk hfuel _; omega
  | succ fuel ih =>
    intro p acc reqs hpk hfuel hbefore
    rcases Nat.eq_or_lt_of_le hpk with heq | hlt
    · have hone : k + 1 - p = 1 := by omega
      have hep : api p = .error e := by rw [heq]; exact herr
      simp [paginateGo, hep, hone, List.range'_one]
    · obtain ⟨hpok, hplen⟩ := hbefore p le_rfl hlt
      have hnot : ¬ (pages p).length < PAGE_SIZE := Nat.not_lt.mpr hplen
      have hrw : k + 1 - p = (k - p) + 1 := by omega
      have hrw2 : k + 1 - (p + 1) = k - p := by omega
      have hstep := ih (p + 1) (acc ++ pages p) (reqs ++ [p]) hlt (by omega)
        (fun j h1 h2 => hbefore j (by omega) h2)
      simp only [paginateGo, hpok, hnot, if_false]
      rw [hstep, hrw, hrw2, List.range'_succ]
      simp [List.append_assoc]

/-- C4: for every paginated listing, pages are requested sequentially
starting at page 1 with a fixed page size of 100, the returned sequence is
the in-order concatenation of all page batches, and the loop stops exactly
at the first page whose batch has fewer than 100 items (that page's items
included) — the pages requested are exactly `1..k` where `k` is the first
short page. -/
theorem paginate_exhausts_and_stops {α : Type}
    (api : Nat → Except String (List α)) (pages : Nat → List α)
    (k fuel : Nat) (h1 : 1 ≤ k) (hfuel : k ≤ fuel)
    (hap : ∀ j, 1 ≤ j → j ≤ k → api j = .ok (pages j))
    (hfull : ∀ j, 1 ≤ j → j < k → PAGE_SIZE ≤ (pages j).length)
    (hshort : (pages k).length < PAGE_SIZE) :
    paginate api fuel =
      some (.ok (((List.range' 1 k).map pages).flatten), List.range' 1 k) := by
  have h := paginateGo_run api pages k hshort fuel 1 [] [] h1 (by omega)
    hap hfull
  have hk : k + 1 - 1 = k := by omega
  rw [hk] at h
  simpa [paginate] using h

/-- The mock page function of the spec's pagination-exhaustion test: full
pages (100 items) for pages 1 and 2, a 40-item page 3, empty afterwards. -/
def mockPages (j : Nat) : List Unit :=
  if j ≤ 2 then List.replicate 100 () else if j = 3 then List.replicate 40 () else []

/-- The mock page-level API wrapping `mockPages`. -/
def mockPagesApi (j : Nat) : Except String (List Unit) := .ok (mockPages j)

/-- Witness for C4: full pages 1–2 and a 40-item page 3 yield exactly 240
items with pages 1, 2, 3 requested and no page 4. -/
theorem paginate_exhausts_and_stops_witness :
    paginate mockPagesApi 3 =
      some (.ok (List.replicate 240 ()), [1, 2, 3]) ∧
    (List.replicate 240 ()).length = 240 := by
  refine ⟨?_, by decide⟩
  have h := paginate_exhausts_and_stops mockPagesApi mockPages 3 3
    (by decide) (by decide) (fun j _ _ => rfl)
    (fun j h1 h2 => by interval_cases j <;> simp [mockPages, PAGE_SIZE]) (by decide)
  exact h.trans rfl

/-! ## Theorems: `mapWithConcurrency` (C3) -/

/-- The pool invariant, preserved by every step of every worker:
results array pre-sized; cursor within bounds; every claimed index is
either already stored with the mapper's value or held by an in-flight
worker; a finished worker certifies an exhausted cursor; in-flight
indices are claimed. -/
def PoolInv (items : List T) (f : T → R) (s : PoolState R) : Prop :=
  s.results.length = items.length ∧
  s.nextIndex ≤ items.length ∧
  (∀ i, i < s.nextIndex →
    s.results[i]? = some ((items[i]?).map f) ∨
    ∃ w : Nat, s.workers[w]? = some (WorkerState.fetching i)) ∧
  ((∃ w : Nat, s.workers[w]? = some WorkerState.done) →
    items.length ≤ s.nextIndex) ∧
  (∀ i w : Nat, s.workers[w]? = some (WorkerState.fetching i) → i < s.nextIndex)

theorem stepWorker_inv (items : List T) (f : T → R) (s : PoolState R)
    (w : Nat) (h : PoolInv items f s) :
    PoolInv items f (stepWorker items f s w) := by
  obtain ⟨hlen, hle, hres, hdone, hfet⟩ := h
  unfold stepWorker
  cases hw : s.workers[w]? with
  | none => exact ⟨hlen, hle, hres, hdone, hfet⟩
  | some ws =>
    have hwlt : w < s.workers.length :=
      (List.getElem?_eq_some.mp hw).1
    cases ws with
    | idle =>
      by_cases hni : s.nextIndex < items.length
      · simp only [hni, if_true]
        refine ⟨hlen, hni, ?_, ?_, ?_⟩
        · intro i hi
          rcases Nat.lt_succ_iff_lt_or_eq.mp hi with hi' | hi'
          · rcases hres i hi' with hl | ⟨w', hw'⟩
            · exact Or.inl hl
            · refine Or.inr ⟨w', ?_⟩
              have hne : w ≠ w' := by
                intro he; rw [he, hw'] at hw; exact absurd hw (by simp)
              simpa [List.getElem?_set_ne hne] using hw'
          · subst hi'
            exact Or.inr ⟨w, by simp [List.getElem?_set_self hwlt]⟩
        · rintro ⟨w', hw'⟩
          by_cases he : w = w'
          · subst he
            rw [List.getElem?_set_self hwlt] at hw'
            exact absurd hw' (by simp)
          · rw [List.getElem?_set_ne he] at hw'
            exact absurd (hdone ⟨w', hw'⟩) (Nat.not_le.mpr hni)
        · intro i w' hw'
          by_cases he : w = w'
          · subst he
            rw [List.getElem?_set_self hwlt] at hw'
            have hie : i = s.nextIndex := by
              simpa using hw'.symm
            exact hie ▸ Nat.lt_succ_self s.nextIndex
          · rw [List.getElem?_set_ne he] at hw'
            exact Nat.lt_succ_of_lt (hfet i w' hw')
      · simp only [hni, if_false]
        refine ⟨hlen, hle, ?_, fun _ => Nat.not_lt.mp hni, ?_⟩
        · intro i hi
          rcases hres i hi with hl | ⟨w', hw'⟩
          · exact Or.inl hl
          · refine Or.inr ⟨w', ?_⟩
            have hne : w ≠ w' := by
              intro he; rw [he, hw'] at hw; exact absurd hw (by simp)
            simpa [List.getElem?_set_ne hne] using hw'
        · intro i w' hw'
          by_cases he : w = w'
          · subst he
            rw [List.getElem?_set_self hwlt] at hw'
            exact absurd hw' (by simp)
          · rw [List.getElem?_set_ne he] at hw'
            exact hfet i w' hw'
    | fetching i =>
      have hilt : i < items.length := Nat.lt_of_lt_of_le (hfet i w hw) hle
      have hirlt : i < s.results.length := by omega
      refine ⟨by simp [List.length_set, hlen], hle, ?_, ?_, ?_⟩
      · intro j hj
        by_cases hij : i = j
        · subst hij
          exact Or.inl (by simp [List.getElem?_set_self hirlt])
        · rcases hres j hj with hl | ⟨w', hw'⟩
          · exact Or.inl (by rw [List.getElem?_set_ne hij]; exact hl)
          · refine Or.inr ⟨w', ?_⟩
            have hne : w ≠ w' := by
              intro he
              rw [he, hw'] at hw
              have hji : j = i := by simpa using hw
              exact hij hji.symm
            simpa [List.getElem?_set_ne hne] using hw'
      · rintro ⟨w', hw'⟩
        by_cases he : w = w'
        · subst he
          rw [List.getElem?_set_self hwlt] at hw'
          exact absurd hw' (by simp)
        · rw [List.getElem?_set_ne he] at hw'
          exact hdone ⟨w', hw'⟩
      · intro j w' hw'
        by_cases he : w = w'
        · subst he
          rw [List.getElem?_set_self hwlt] at hw'
          exact absurd hw' (by simp)
        · rw [List.getElem?_set_ne he] at hw'
          exact hfet j w' hw'
    | done => exact ⟨hlen, hle, hres, hdone, hfet⟩

theorem runPool_inv (items : List T) (f : T → R) (sched : List Nat)
    (s : PoolState R) (h : PoolInv items f s) :
    PoolInv items f (runPool items f s sched) := by
  induction sched generalizing s with
  | nil => exact h
  | cons w rest ih => exact ih _ (stepWorker_inv items f s w h)

theorem initPool_inv (items : List T) (f : T → R) (limit : Nat) :
    PoolInv items f (initPool R items limit) := by
  refine ⟨by simp [initPool], by simp [initPool], ?_, ?_, ?_⟩
  · intro i hi; simp [initPool] at hi
  · rintro ⟨w, hw⟩
    simp only [initPool, List.getElem?_replicate] at hw
    split at hw
    · simp at hw
    · simp at hw
  · intro i w hw
    simp only [initPool, List.getElem?_replicate] at hw
    split at hw
    · simp at hw
    · simp at hw

theorem stepWorker_workers_length (items : List T) (f : T → R)
    (s : PoolState R) (w : Nat) :
    (stepWorker items f s w).workers.length = s.workers.length := by
  unfold stepWorker
  cases hw : s.workers[w]? with
  | none => rfl
  | some ws => cases ws <;> simp only [List.length_set] <;> split <;> simp

theorem runPool_workers_length (items : List T) (f : T → R)
    (sched : List Nat) (s : PoolState R) :
    (runPool items f s sched).workers.length = s.workers.length := by
  induction sched generalizing s with
  | nil => rfl
  | cons w rest ih =>
    exact (ih _).trans (stepWorker_workers_length items f s w)

/-- C3: for every input list and positive limit, the bounded-concurrency
fetcher launches exactly `min(limit, items.length)` workers, and under every
schedule that drives every worker to completion, the cursor has claimed each
input index exactly once (`nextIndex = items.length`, each claim taking a
distinct index) and the result at index `i` is the mapper's result for the
input at index `i` — the output sequence is index-aligned with the input
regardless of completion order. -/
theorem mapWithConcurrency_index_aligned {T R : Type} (items : List T)
    (f : T → R) (limit : Nat) (hl : 0 < limit) (sched : List Nat)
    (hdone : ∀ ws ∈ (runPool items f (initPool R items limit) sched).workers,
      ws = WorkerState.done) :
    (initPool R items limit).workers.length = min limit items.length ∧
    (runPool items f (initPool R items limit) sched).results =
      items.map (fun x => some (f x)) ∧
    (runPool items f (initPool R items limit) sched).nextIndex =
      items.length := by
  have hinv := runPool_inv items f sched _ (initPool_inv items f limit)
  obtain ⟨hlen, hle, hres, hdone', hfet⟩ := hinv
  refine ⟨by simp [initPool], ?_⟩
  rcases List.eq_nil_or_concat items with hnil | ⟨_, _, hne⟩
  · subst hnil
    constructor
    · have : (runPool [] f (initPool R [] limit) sched).results.length = 0 :=
        hlen
      simpa using List.eq_nil_of_length_eq_zero this
    · simp only [List.length_nil] at hle ⊢
      omega
  · have hpos : 0 < items.length := by
      subst hne; simp
    have hwpos :
        0 < (runPool items f (initPool R items limit) sched).workers.length := by
      rw [runPool_workers_length]
      simp only [initPool, List.length_replicate]
      omega
    have hw0 :
        ∃ ws, (runPool items f (initPool R items limit) sched).workers[0]? =
          some ws := by
      exact ⟨_, List.getElem?_eq_getElem hwpos⟩
    obtain ⟨ws0, hws0⟩ := hw0
    have hws0done : ws0 = WorkerState.done :=
      hdone ws0 (List.getElem?_mem hws0)
    subst hws0done
    have hnall : items.length ≤
        (runPool items f (initPool R items limit) sched).nextIndex :=
      hdone' ⟨0, hws0⟩
    have hnl : (runPool items f (initPool R items limit) sched).nextIndex =
        items.length := by omega
    refine ⟨?_, hnl⟩
    apply List.ext_getElem?
    intro i
    by_cases hi : i < items.length
    · have := hres i (by omega)
      rcases this with hl | ⟨w', hw'⟩
      · rw [hl, List.getElem?_map]
        rw [List.getElem?_eq_getElem hi]
        simp
      · have := hdone _ (List.getElem?_mem hw')
        exact absurd this (by simp)
    · have h1 : (runPool items f (initPool R items limit) sched).results[i]? =
          none := by
        apply List.getElem?_eq_none
        omega
      have h2 : (items.map (fun x => some (f x)))[i]? = none := by
        apply List.getElem?_eq_none
        simpa using Nat.not_lt.mp hi
      rw [h1, h2]

/-- Witness for C3: three items, limit 2, and a concrete completing
schedule; both workers finish, the pool launched `min 2 3 = 2` workers, and
the results are index-aligned. -/
theorem mapWithConcurrency_index_aligned_witness :
    (0 : Nat) < 2 ∧
    (∀ ws ∈ (runPool [10, 20, 30] (fun x => x * 2)
        (initPool Nat [10, 20, 30] 2) [0, 0, 0, 0, 1, 1, 0, 1]).workers,
      ws = WorkerState.done) ∧
    (initPool Nat [10, 20, 30] 2).workers.length = min 2 3 ∧
    (runPool [10, 20, 30] (fun x => x * 2)
        (initPool Nat [10, 20, 30] 2) [0, 0, 0, 0, 1, 1, 0, 1]).results =
      [some 20, some 40, some 60] := by
  refine ⟨by decide, by decide, ?_⟩
  have h := mapWithConcurrency_index_aligned [10, 20, 30] (fun x => x * 2) 2
    (by decide) [0, 0, 0, 0, 1, 1, 0, 1] (by decide)
  exact ⟨h.1, h.2.1.trans (by decide)⟩

/-! ## Lemmas about the association-list map model -/

theorem mapGet_cons (kv : String × V) (m : List (String × V)) (k : String) :
    mapGet (kv :: m) k = if kv.1 = k then some kv.2 else mapGet m k := by
  by_cases h : kv.1 = k
  · have hb : (kv.1 == k) = true := beq_iff_eq.mpr h
    simp [mapGet, List.find?_cons, hb, h]
  · have hb : (kv.1 == k) = false := beq_eq_false_iff_ne.mpr h
    simp [mapGet, List.find?_cons, hb, h]

theorem mapGet_append (m1 m2 : List (String × V)) (k : String) :
    mapGet (m1 ++ m2) k =
      match mapGet m1 k with
      | some v => some v
      | none => mapGet m2 k := by
  induction m1 with
  | nil => simp [mapGet]
  | cons kv rest ih =>
    rw [List.cons_append, mapGet_cons, mapGet_cons]
    by_cases h : kv.1 = k
    · simp [h]
    · simp [h, ih]

theorem mapGet_update_self (m : List (String × V)) (k : String) (f : V → V) :
    mapGet (mapUpdate m k f) k = (mapGet m k).map f := by
  induction m with
  | nil => simp [mapGet, mapUpdate]
  | cons kv rest ih =>
    by_cases h : kv.1 = k
    · simp [mapUpdate, h, mapGet_cons]
    · simp only [mapUpdate, beq_iff_eq, h, if_false]
      rw [mapGet_cons, mapGet_cons]
      simp [h, ih]

theorem mapGet_update_ne (m : List (String × V)) (k : String) (f : V → V)
    (k' : String) (h : k' ≠ k) :
    mapGet (mapUpdate m k f) k' = mapGet m k' := by
  induction m with
  | nil => simp [mapUpdate]
  | cons kv rest ih =>
    by_cases hk : kv.1 = k
    · simp only [mapUpdate, beq_iff_eq, hk, if_true]
      rw [mapGet_cons, mapGet_cons]
      have h1 : kv.1 ≠ k' := by rw [hk]; exact fun he => h he.symm
      have h2 : k ≠ k' := fun he => h he.symm
      simp [h1, h2]
    · simp only [mapUpdate, beq_iff_eq, hk, if_false]
      rw [mapGet_cons, mapGet_cons]
      by_cases h2 : kv.1 = k'
      · simp [h2]
      · simp [h2, ih]

theorem mapUpdate_keys (m : List (String × V)) (k : String) (f : V → V) :
    (mapUpdate m k f).map Prod.fst = m.map Prod.fst := by
  induction m with
  | nil => rfl
  | cons kv rest ih =>
    by_cases h : kv.1 = k
    · simp [mapUpdate, h]
    · simp [mapUpdate, h, ih]

theorem mapGet_isSome_iff (m : List (String × V)) (k : String) :
    (mapGet m k).isSome = true ↔ k ∈ m.map Prod.fst := by
  induction m with
  | nil => simp [mapGet]
  | cons kv rest ih =>
    rw [mapGet_cons]
    by_cases h : kv.1 = k
    · simp [h]
    · simp only [h, if_false, List.map_cons, List.mem_cons]
      rw [ih]
      constructor
      · exact fun hm => Or.inr hm
      · rintro (he | hm)
        · exact absurd he.symm h
        · exact hm

theorem mapGet_eq_none_iff (m : List (String × V)) (k : String) :
    mapGet m k = none ↔ k ∉ m.map Prod.fst := by
  rw [← mapGet_isSome_iff]
  cases mapGet m k <;> simp

theorem mem_of_mapGet_eq_some {m : List (String × V)} {k : String} {v : V}
    (h : mapGet m k = some v) : (k, v) ∈ m := by
  induction m with
  | nil => simp [mapGet] at h
  | cons kv rest ih =>
    rw [mapGet_cons] at h
    by_cases he : kv.1 = k
    · simp only [he, if_true, Option.some_inj] at h
      have hkv : (k, v) = kv := by rw [← he, ← h]
      exact hkv ▸ List.mem_cons_self _ _
    · simp only [he, if_false] at h
      exact List.mem_cons_of_mem _ (ih h)

theorem mapGet_of_mem_nodup {m : List (String × V)} {k : String} {v : V}
    (hnd : (m.map Prod.fst).Nodup) (h : (k, v) ∈ m) : mapGet m k = some v := by
  induction m with
  | nil => simp at h
  | cons kv rest ih =>
    rw [List.map_cons, List.nodup_cons] at hnd
    rcases List.mem_cons.mp h with he | hm
    · subst he
      simp [mapGet_cons]
    · rw [mapGet_cons]
      have hne : kv.1 ≠ k := by
        intro he
        exact hnd.1 (he ▸ (List.mem_map.mpr ⟨(k, v), hm, rfl⟩))
      simp only [hne, if_false]
      exact ih hnd.2 hm

/-! ## Lemmas about `addIfAbsent` (the JS `Set.add` model) -/

theorem mem_addIfAbsent (l : List String) (n x : String) :
    x ∈ addIfAbsent l n ↔ x ∈ l ∨ x = n := by
  unfold addIfAbsent
  by_cases h : n ∈ l
  · simp only [h, if_true]
    constructor
    · exact fun hx => Or.inl hx
    · rintro (hx | rfl)
      · exact hx
      · exact h
  · simp [h]

theorem addIfAbsent_idem (l : List String) (n : String) :
    addIfAbsent (addIfAbsent l n) n = addIfAbsent l n := by
  unfold addIfAbsent
  by_cases h : n ∈ l
  · simp [h]
  · simp [h]

theorem addIfAbsent_nodup (l : List String) (n : String) (h : l.Nodup) :
    (addIfAbsent l n).Nodup := by
  unfold addIfAbsent
  by_cases hn : n ∈ l
  · simpa [hn] using h
  · simp only [hn, if_false]
    refine List.Nodup.append h (List.nodup_singleton n) ?_
    intro a ha hb
    rw [List.mem_singleton] at hb
    exact hn (hb ▸ ha)

/-! ## Lemmas about the repository merge -/

theorem mergeRepo_get_self (m : RepoMap) (accName : String) (repo : OrgRepo) :
    mapGet (mergeRepo m accName repo) repo.full_name =
      some (match mapGet m repo.full_name with
        | some e => { e with accounts := addIfAbsent e.accounts accName }
        | none => seedRepository repo accName) := by
  unfold mergeRepo
  cases hm : mapGet m repo.full_name with
  | some e => simp [mapGet_update_self, hm]
  | none =>
    rw [mapGet_append, hm]
    simp [mapGet_cons]

theorem mergeRepo_get_ne (m : RepoMap) (accName : String) (repo : OrgRepo)
    (k : String) (h : k ≠ repo.full_name) :
    mapGet (mergeRepo m accName repo) k = mapGet m k := by
  unfold mergeRepo
  cases hm : mapGet m repo.full_name with
  | some e => exact mapGet_update_ne m repo.full_name _ k h
  | none =>
    rw [mapGet_append]
    cases hk : mapGet m k with
    | some v => rfl
    | none =>
      have hne : repo.full_name ≠ k := fun he => h he.symm
      simp [mapGet_cons, mapGet, hne]

theorem mergeRepo_keys_nodup (m : RepoMap) (accName : String) (repo : OrgRepo)
    (h : (m.map Prod.fst).Nodup) :
    ((mergeRepo m accName repo).map Prod.fst).Nodup := by
  unfold mergeRepo
  cases hm : mapGet m repo.full_name with
  | some e => rw [mapUpdate_keys]; exact h
  | none =>
    rw [List.map_append]
    refine List.Nodup.append h (by simp) ?_
    have hnot : repo.full_name ∉ m.map Prod.fst := (mapGet_eq_none_iff m _).mp hm
    intro a ha hb
    simp only [List.map_cons, List.map_nil, List.mem_singleton] at hb
    exact hnot (hb ▸ ha)

/-- Full characterization of a lookup after merging one account's discovered
repository list: an existing entry gains the account name (idempotently), a
key discovered for the first time maps to an entry seeded from its first
occurrence, and unrelated keys are untouched. -/
theorem mergeRepositories_get (accName : String) (repos : List OrgRepo) :
    ∀ (m : RepoMap) (k : String),
    mapGet (mergeRepositories m accName repos) k =
      match mapGet m k, repos.find? (fun r => r.full_name == k) with
      | some v, some _ =>
        some { v with accounts := addIfAbsent v.accounts accName }
      | some v, none => some v
      | none, some r => some (seedRepository r accName)
      | none, none => none := by
  induction repos with
  | nil =>
    intro m k
    cases hm : mapGet m k <;> simp [mergeRepositories, hm]
  | cons r rest ih =>
    intro m k
    have hstep : mergeRepositories m accName (r :: rest) =
        mergeRepositories (mergeRepo m accName r) accName rest := by
      simp [mergeRepositories, List.foldl_cons]
    rw [hstep, ih]
    by_cases hr : r.full_name = k
    · have hfind : (r :: rest).find? (fun x => x.full_name == k) = some r := by
        simp [List.find?_cons, hr]
      rw [hfind]
      cases hm : mapGet m k with
      | some v =>
        have hself : mapGet (mergeRepo m accName r) k =
            some { v with accounts := addIfAbsent v.accounts accName } := by
          rw [← hr, mergeRepo_get_self, hr, hm]
        rw [hself]
        cases hrest : rest.find? (fun x => x.full_name == k) with
        | some r' => simp [addIfAbsent_idem]
        | none => simp
      | none =>
        have hself : mapGet (mergeRepo m accName r) k =
            some (seedRepository r accName) := by
          rw [← hr, mergeRepo_get_self, hr, hm]
        rw [hself]
        cases hrest : rest.find? (fun x => x.full_name == k) with
        | some r' => simp [seedRepository, addIfAbsent]
        | none => simp
    · have hne : k ≠ r.full_name := fun he => hr he.symm
      rw [mergeRepo_get_ne m accName r k hne]
      have hfind : (r :: rest).find? (fun x => x.full_name == k) =
          rest.find? (fun x => x.full_name == k) := by
        simp [List.find?_cons, hr]
      rw [hfind]

theorem mergeRepositories_keys_nodup (accName : String) (repos : List OrgRepo) :
    ∀ m : RepoMap, (m.map Prod.fst).Nodup →
      ((mergeRepositories m accName repos).map Prod.fst).Nodup := by
  induction repos with
  | nil => intro m h; exact h
  | cons r rest ih =>
    intro m h
    have hstep : mergeRepositories m accName (r :: rest) =
        mergeRepositories (mergeRepo m accName r) accName rest := by
      simp [mergeRepositories, List.foldl_cons]
    rw [hstep]
    exact ih _ (mergeRepo_keys_nodup m accName r h)

/-! ## Theorem: repository merge step (C6) -/

/-- C6: when merging a discovered repository whose full-name key already
exists in the global repository map, the merge adds the account name to that
entry's `accounts` set and leaves every other field of the entry — and every
other entry — unchanged; when the key is absent, the merge appends a new
entry seeded from the discovery result with `openPullRequestCount` zero and
`accounts` the singleton containing the account name. -/
theorem mergeRepo_add_or_seed (m : RepoMap) (accName : String)
    (repo : OrgRepo) :
    ((mapGet m repo.full_name).isSome = true →
      (∃ e, mapGet m repo.full_name = some e ∧
        mapGet (mergeRepo m accName repo) repo.full_name =
          some { e with accounts := addIfAbsent e.accounts accName }) ∧
      (∀ k, k ≠ repo.full_name →
        mapGet (mergeRepo m accName repo) k = mapGet m k)) ∧
    (mapGet m repo.full_name = none →
      mergeRepo m accName repo =
        m ++ [(repo.full_name, seedRepository repo accName)] ∧
      (seedRepository repo accName).openPullRequestCount = 0 ∧
      (seedRepository repo accName).accounts = [accName] ∧
      (seedRepository repo accName).fullName = repo.full_name) := by
  constructor
  · intro hsome
    obtain ⟨e, he⟩ := Option.isSome_iff_exists.mp hsome
    constructor
    · refine ⟨e, he, ?_⟩
      rw [mergeRepo_get_self, he]
    · intro k hk
      exact mergeRepo_get_ne m accName repo k hk
  · intro hnone
    refine ⟨?_, rfl, rfl, rfl⟩
    unfold mergeRepo
    rw [hnone]

/-- A concrete discovered repository for witnesses. -/
def wRepo : OrgRepo :=
  { name := "widgets"
    full_name := "acme/widgets"
    html_url := "https://example.test/acme/widgets"
    owner := { login := "acme" }
    «private» := false
    visibility := "public"
    archived := false
    has_issues := true
    open_issues_count := 2
    updated_at := "2024-01-02T00:00:00Z"
    default_branch := "main" }

/-- Witness for C6: merging into a map that already holds the key updates
only the `accounts` set; merging into the empty map appends the seeded
entry. -/
theorem mergeRepo_add_or_seed_witness :
    (mapGet [("acme/widgets", seedRepository wRepo "A")] wRepo.full_name).isSome = true ∧
    (∃ e, mapGet [("acme/widgets", seedRepository wRepo "A")] wRepo.full_name = some e ∧
      mapGet (mergeRepo [("acme/widgets", seedRepository wRepo "A")] "B" wRepo)
          wRepo.full_name =
        some { e with accounts := addIfAbsent e.accounts "B" }) ∧
    mergeRepo [] "A" wRepo = [("acme/widgets", seedRepository wRepo "A")] := by
  refine ⟨by decide, ?_, ?_⟩
  · exact ((mergeRepo_add_or_seed [("acme/widgets", seedRepository wRepo "A")]
      "B" wRepo).1 (by decide)).1
  · have h := ((mergeRepo_add_or_seed [] "A" wRepo).2 rfl).1
    simpa using h

/-! ## Lemmas about the per-account fetch stage -/

theorem exceptIsOk_iff {ε α : Type} (e : Except ε α) :
    e.isOk = true ↔ ∃ x, e = .ok x := by
  cases e <;> simp [Except.isOk, Except.toBool]

theorem fetchStage_cons_ok (env : Env) (a : Account) (m : RepoMap)
    (repo : OrgRepo) (rest : List OrgRepo) (ps : List RepoPullRequest)
    (hps : env.listRepoOpenPullRequests repo.owner.login repo.name a.token =
      .ok ps) :
    fetchStage env a m (repo :: rest) =
      (fetchStage env a (updateCount m repo.full_name ps.length) rest).bind
        (fun p => .ok (p.1, ps.map (toDashboardPR repo a.name) :: p.2)) := by
  simp only [fetchStage, hps, Bind.bind, Except.bind]

theorem fetchStage_cons_error (env : Env) (a : Account) (m : RepoMap)
    (repo : OrgRepo) (rest : List OrgRepo) (e : String)
    (hps : env.listRepoOpenPullRequests repo.owner.login repo.name a.token =
      .error e) :
    fetchStage env a m (repo :: rest) = .error e := by
  simp only [fetchStage, hps, Bind.bind, Except.bind]

/-- When every candidate's listing succeeds, the fetch stage returns the
candidate-aligned batches, each key's count is bumped by folding `Nat.max`
over that key's observations of this account (in candidate order), other
fields and the key set are untouched. -/
theorem fetchStage_spec (env : Env) (a : Account) :
    ∀ (cands : List OrgRepo) (m : RepoMap),
    (∀ r ∈ cands,
      (env.listRepoOpenPullRequests r.owner.login r.name a.token).isOk = true) →
    ∃ m2,
      fetchStage env a m cands =
        .ok (m2,
          cands.map (fun r => (prsOf env a r).map (toDashboardPR r a.name))) ∧
      (∀ k, mapGet m2 k = (mapGet m k).map (fun v =>
        { v with openPullRequestCount :=
            ((cands.filter (fun r => r.full_name == k)).map
              (prCountOf env a)).foldl Nat.max v.openPullRequestCount })) ∧
      m2.map Prod.fst = m.map Prod.fst := by
  intro cands
  induction cands with
  | nil =>
    intro m _
    refine ⟨m, by simp [fetchStage], ?_, rfl⟩
    intro k
    cases hm : mapGet m k <;> simp
  | cons repo rest ih =>
    intro m hok
    obtain ⟨ps, hps⟩ := (exceptIsOk_iff _).mp (hok repo (List.mem_cons_self _ _))
    have hprs : prsOf env a repo = ps := by simp [prsOf, hps]
    obtain ⟨m2, hfs, hget, hkeys⟩ := ih (updateCount m repo.full_name ps.length)
      (fun r hr => hok r (List.mem_cons_of_mem _ hr))
    refine ⟨m2, ?_, ?_, ?_⟩
    · rw [fetchStage_cons_ok env a m repo rest ps hps, hfs, List.map_cons, hprs]
      rfl
    · intro k
      rw [hget k]
      by_cases hrk : repo.full_name = k
      · have hfilter : ((repo :: rest).filter (fun r => r.full_name == k)) =
            repo :: rest.filter (fun r => r.full_name == k) := by
          simp [List.filter_cons, hrk]
        have hm1 : mapGet (updateCount m repo.full_name ps.length) k =
            (mapGet m k).map (fun v =>
              { v with openPullRequestCount :=
                  Nat.max v.openPullRequestCount ps.length }) := by
          rw [← hrk]
          exact mapGet_update_self m repo.full_name _
        rw [hm1, hfilter, Option.map_map]
        cases hm : mapGet m k with
        | none => rfl
        | some v =>
          simp [prCountOf, hprs]
      · have hne : k ≠ repo.full_name := fun he => hrk he.symm
        have hm1 : mapGet (updateCount m repo.full_name ps.length) k =
            mapGet m k :=
          mapGet_update_ne m repo.full_name _ k hne
        have hfilter : ((repo :: rest).filter (fun r => r.full_name == k)) =
            rest.filter (fun r => r.full_name == k) := by
          simp [List.filter_cons, hrk]
        rw [hm1, hfilter]
    · rw [hkeys]
      simp [updateCount, mapUpdate_keys]

/-- The fetch stage succeeds exactly when every candidate's listing does. -/
theorem fetchStage_isOk_iff (env : Env) (a : Account) :
    ∀ (cands : List OrgRepo) (m : RepoMap),
    (∃ res, fetchStage env a m cands = .ok res) ↔
    ∀ r ∈ cands,
      (env.listRepoOpenPullRequests r.owner.login r.name a.token).isOk = true := by
  intro cands
  induction cands with
  | nil => intro m; simp [fetchStage]
  | cons repo rest ih =>
    intro m
    cases hps : env.listRepoOpenPullRequests repo.owner.login repo.name a.token with
    | error e =>
      constructor
      · rintro ⟨res, hres⟩
        rw [fetchStage_cons_error env a m repo rest e hps] at hres
        exact absurd hres (by simp)
      · intro hall
        have hre := hall repo (List.mem_cons_self _ _)
        rw [hps] at hre
        simp [Except.isOk, Except.toBool] at hre
    | ok ps =>
      rw [fetchStage_cons_ok env a m repo rest ps hps]
      constructor
      · rintro ⟨res, hres⟩ r hr
        rcases List.mem_cons.mp hr with rfl | hr'
        · rw [hps]; rfl
        · have hrest : ∃ res2,
              fetchStage env a (updateCount m repo.full_name ps.length) rest =
                .ok res2 := by
            cases hfs : fetchStage env a (updateCount m repo.full_name ps.length)
                rest with
            | error e =>
              rw [hfs] at hres
              exact absurd hres (by simp [Except.bind])
            | ok p => exact ⟨p, rfl⟩
          exact (ih _).mp hrest r hr'
      · intro hall
        obtain ⟨res, hres⟩ := (ih (updateCount m repo.full_name ps.length)).mpr
          (fun r hr => hall r (List.mem_cons_of_mem _ hr))
        exact ⟨(res.1, ps.map (toDashboardPR repo a.name) :: res.2),
          by rw [hres]; rfl⟩

/-! ## Lemmas about the pull-request merge (first-seen-wins) -/

/-- Invariant of the global pull-request map relative to the ordered list of
sightings merged so far: unique keys, every stored entry is the first
sighting with its key, and every sighted key is present. -/
def PRInv (pm : PRMap) (S : List DashboardPullRequest) : Prop :=
  (pm.map Prod.fst).Nodup ∧
  (∀ k v, mapGet pm k = some v →
    v.id = k ∧ S.find? (fun s => s.id == k) = some v) ∧
  (∀ s ∈ S, (mapGet pm s.id).isSome = true)

theorem insertIfAbsent_inv (pm : PRMap) (S : List DashboardPullRequest)
    (h : PRInv pm S) (s : DashboardPullRequest) :
    PRInv (insertIfAbsent pm s) (S ++ [s]) := by
  obtain ⟨hnd, hval, hmem⟩ := h
  unfold insertIfAbsent
  by_cases hs : (mapGet pm s.id).isSome = true
  · simp only [hs, if_true]
    refine ⟨hnd, ?_, ?_⟩
    · intro k v hkv
      obtain ⟨hid, hfind⟩ := hval k v hkv
      refine ⟨hid, ?_⟩
      rw [List.find?_append, hfind]
      rfl
    · intro t ht
      rcases List.mem_append.mp ht with ht | ht
      · exact hmem t ht
      · rw [List.mem_singleton] at ht
        subst ht
        exact hs
  · have hnone : mapGet pm s.id = none := by
      cases hg : mapGet pm s.id with
      | none => rfl
      | some v => rw [hg] at hs; simp at hs
    rw [if_neg hs]
    have hSfind : S.find? (fun t => t.id == s.id) = none := by
      rw [List.find?_eq_none]
      intro t ht hts
      have htid : t.id = s.id := by simpa using hts
      have hsome := hmem t ht
      rw [htid, hnone] at hsome
      simp [Option.isSome] at hsome
    refine ⟨?_, ?_, ?_⟩
    · rw [List.map_append]
      refine List.Nodup.append hnd (by simp) ?_
      intro x hx hy
      simp only [List.map_cons, List.map_nil, List.mem_singleton] at hy
      subst hy
      exact absurd ((mapGet_isSome_iff pm s.id).mpr hx) hs
    · intro k v hkv
      rw [mapGet_append] at hkv
      cases hg : mapGet pm k with
      | some v0 =>
        rw [hg] at hkv
        simp only [Option.some_inj] at hkv
        subst hkv
        obtain ⟨hid, hfind⟩ := hval k v0 hg
        refine ⟨hid, ?_⟩
        rw [List.find?_append, hfind]
        rfl
      | none =>
        rw [hg] at hkv
        rw [mapGet_cons] at hkv
        by_cases hk : s.id = k
        · simp only [hk, if_true, Option.some_inj] at hkv
          subst hkv
          refine ⟨hk, ?_⟩
          rw [List.find?_append]
          rw [← hk, hSfind]
          simp [List.find?_cons]
        · simp [hk, mapGet] at hkv
    · intro t ht
      rcases List.mem_append.mp ht with ht | ht
      · have := hmem t ht
        rw [mapGet_append]
        cases hg : mapGet pm t.id with
        | some v => simp
        | none => rw [hg] at this; simp [Option.isSome] at this
      · rw [List.mem_singleton] at ht
        subst ht
        rw [mapGet_append, hnone, mapGet_cons]
        simp

theorem foldl_insertIfAbsent_inv (B : List DashboardPullRequest) :
    ∀ (pm : PRMap) (S : List DashboardPullRequest), PRInv pm S →
      PRInv (B.foldl insertIfAbsent pm) (S ++ B) := by
  induction B with
  | nil => intro pm S h; simpa using h
  | cons s rest ih =>
    intro pm S h
    have hs := ih (insertIfAbsent pm s) (S ++ [s]) (insertIfAbsent_inv pm S h s)
    simpa [List.append_assoc] using hs

theorem foldl_batches_eq_flatten (batches : List (List DashboardPullRequest)) :
    ∀ pm : PRMap,
      batches.foldl (fun pm batch => batch.foldl insertIfAbsent pm) pm =
        batches.flatten.foldl insertIfAbsent pm := by
  induction batches with
  | nil => intro pm; rfl
  | cons b rest ih =>
    intro pm
    rw [List.foldl_cons, ih, List.flatten_cons, List.foldl_append]

/-! ## Decomposition of the derived views over the account list -/

/-- One account's contribution to `allSightings`. -/
def accountSightings (env : Env) (a : Account) : List DashboardPullRequest :=
  (candidateRepos env a).flatMap (fun r =>
    (prsOf env a r).map (toDashboardPR r a.name))

theorem allSightings_append (env : Env) (l1 l2 : List Account) :
    allSightings env (l1 ++ l2) =
      allSightings env l1 ++ allSightings env l2 := by
  simp [allSightings, List.flatMap_append]

theorem allSightings_singleton (env : Env) (a : Account) :
    allSightings env [a] = accountSightings env a := by
  simp [allSightings, accountSightings]

theorem observations_append (env : Env) (l1 l2 : List Account) (k : String) :
    observations env (l1 ++ l2) k =
      observations env l1 k ++ observations env l2 k := by
  simp [observations, List.flatMap_append]

theorem observations_singleton (env : Env) (a : Account) (k : String) :
    observations env [a] k =
      ((candidateRepos env a).filter (fun r => r.full_name == k)).map
        (prCountOf env a) := by
  simp [observations]

theorem mem_discoveredNames (env : Env) (a : Account) (k : String) :
    k ∈ discoveredNames env a ↔
      ∃ r ∈ discoveredRepos env a, r.full_name = k := by
  simp [discoveredNames]

/-! ## Unfolding lemmas for `processAccount` -/

theorem discoveredRepos_ok (env : Env) (a : Account) (rs : List OrgRepo)
    (hrs : env.listAccessibleRepos a.token = .ok rs) :
    discoveredRepos env a = rs.filter (orgAllowed a) := by
  simp [discoveredRepos, hrs]

theorem processAccount_ok_unfold (env : Env) (st : RepoMap × PRMap)
    (a : Account) (rs : List OrgRepo)
    (hrs : env.listAccessibleRepos a.token = .ok rs)
    (m2 : RepoMap) (batches : List (List DashboardPullRequest))
    (hfs : fetchStage env a
      (mergeRepositories st.1 a.name (rs.filter (orgAllowed a)))
      ((rs.filter (orgAllowed a)).filter candidateFilter) = .ok (m2, batches)) :
    processAccount env st a = .ok (m2,
      batches.foldl (fun pm batch => batch.foldl insertIfAbsent pm) st.2) := by
  simp only [processAccount, hrs, Bind.bind, Except.bind, hfs]

theorem processAccount_error_discovery (env : Env) (st : RepoMap × PRMap)
    (a : Account) (e : String)
    (hrs : env.listAccessibleRepos a.token = .error e) :
    processAccount env st a = .error e := by
  simp only [processAccount, hrs, Bind.bind, Except.bind]

theorem processAccount_error_fetch (env : Env) (st : RepoMap × PRMap)
    (a : Account) (rs : List OrgRepo) (e : String)
    (hrs : env.listAccessibleRepos a.token = .ok rs)
    (hfs : fetchStage env a
      (mergeRepositories st.1 a.name (rs.filter (orgAllowed a)))
      ((rs.filter (orgAllowed a)).filter candidateFilter) = .error e) :
    processAccount env st a = .error e := by
  simp only [processAccount, hrs, Bind.bind, Except.bind, hfs]

/-! ## The global repository-map invariant -/

/-- Per-entry invariant after processing the accounts in `pfx`: the entry is
keyed by its full name, its `accounts` set holds exactly the names of the
processed accounts that discovered it, and its count is the running maximum
of all observations recorded so far. -/
def RepoEntryInv (env : Env) (pfx : List Account) (k : String)
    (v : MutableDashboardRepository) : Prop :=
  v.fullName = k ∧
  v.accounts.Nodup ∧
  (∀ n, n ∈ v.accounts ↔ ∃ a ∈ pfx, a.name = n ∧ k ∈ discoveredNames env a) ∧
  v.openPullRequestCount = (observations env pfx k).foldl Nat.max 0

/-- Map-level invariant: unique keys, a key is present iff some processed
account discovered it, and every entry satisfies the per-entry invariant. -/
def RepoMapInv (env : Env) (pfx : List Account) (m : RepoMap) : Prop :=
  (m.map Prod.fst).Nodup ∧
  (∀ k, (mapGet m k).isSome = true ↔ ∃ a ∈ pfx, k ∈ discoveredNames env a) ∧
  (∀ k v, mapGet m k = some v → RepoEntryInv env pfx k v)

theorem exists_mem_append_singleton {α : Type} (l : List α) (a : α)
    (P : α → Prop) :
    (∃ x ∈ l ++ [a], P x) ↔ ((∃ x ∈ l, P x) ∨ P a) := by
  constructor
  · rintro ⟨x, hx, hP⟩
    rcases List.mem_append.mp hx with hx | hx
    · exact Or.inl ⟨x, hx, hP⟩
    · rw [List.mem_singleton] at hx
      subst hx
      exact Or.inr hP
  · rintro (⟨x, hx, hP⟩ | hP)
    · exact ⟨x, List.mem_append_left _ hx, hP⟩
    · exact ⟨a, List.mem_append_right _ (List.mem_singleton_self a), hP⟩

/-- Processing one account preserves both invariants, extending the
processed prefix. -/
theorem processAccount_step (env : Env) (a : Account) (m : RepoMap)
    (pm : PRMap) (pfx : List Account)
    (hm : RepoMapInv env pfx m) (hpm : PRInv pm (allSightings env pfx))
    (hok : accountOk env a) :
    ∃ m2 pm2,
      processAccount env (m, pm) a = .ok (m2, pm2) ∧
      RepoMapInv env (pfx ++ [a]) m2 ∧
      PRInv pm2 (allSightings env (pfx ++ [a])) := by
  obtain ⟨hdisc, hcands⟩ := hok
  obtain ⟨rs, hrs⟩ := (exceptIsOk_iff _).mp hdisc
  have hD : discoveredRepos env a = rs.filter (orgAllowed a) :=
    discoveredRepos_ok env a rs hrs
  have hC : candidateRepos env a =
      (rs.filter (orgAllowed a)).filter candidateFilter := by
    rw [candidateRepos, hD]
  obtain ⟨m2, hfs, hget, hkeys⟩ := fetchStage_spec env a
    ((rs.filter (orgAllowed a)).filter candidateFilter)
    (mergeRepositories m a.name (rs.filter (orgAllowed a)))
    (by rw [← hC]; exact hcands)
  have hfind_iff : ∀ k : String,
      ((rs.filter (orgAllowed a)).find?
        (fun r => r.full_name == k)).isSome = true ↔
      k ∈ discoveredNames env a := by
    intro k
    rw [List.find?_isSome]
    constructor
    · rintro ⟨r, hr, hp⟩
      rw [discoveredNames, hD]
      exact List.mem_map.mpr ⟨r, hr, by simpa using hp⟩
    · intro hk
      rw [discoveredNames, hD] at hk
      obtain ⟨r, hr, hrk⟩ := List.mem_map.mp hk
      exact ⟨r, hr, by simpa using hrk⟩
  refine ⟨m2, _,
    processAccount_ok_unfold env (m, pm) a rs hrs m2 _ hfs, ?_, ?_⟩
  · -- the repository-map invariant
    obtain ⟨hnd, hiff, hent⟩ := hm
    refine ⟨?_, ?_, ?_⟩
    · rw [hkeys]
      exact mergeRepositories_keys_nodup a.name _ m hnd
    · intro k
      rw [hget k, Option.isSome_map']
      rw [mergeRepositories_get, exists_mem_append_singleton]
      cases hmk : mapGet m k with
      | some v =>
        cases hfk : (rs.filter (orgAllowed a)).find?
            (fun r => r.full_name == k) with
        | some r =>
          simp only [Option.isSome_some, true_iff]
          exact Or.inl ((hiff k).mp (by rw [hmk]; rfl))
        | none =>
          simp only [Option.isSome_some, true_iff]
          exact Or.inl ((hiff k).mp (by rw [hmk]; rfl))
      | none =>
        cases hfk : (rs.filter (orgAllowed a)).find?
            (fun r => r.full_name == k) with
        | some r =>
          simp only [Option.isSome_some, true_iff]
          exact Or.inr ((hfind_iff k).mp (by rw [hfk]; rfl))
        | none =>
          simp only [Option.isSome_none]
          constructor
          · intro hfalse
            exact absurd hfalse (by simp)
          · rintro (hpfx | hka)
            · have := (hiff k).mpr hpfx
              rw [hmk] at this
              simp at this
            · have := (hfind_iff k).mpr hka
              rw [hfk] at this
              simp at this
    · intro k v2 hv2
      rw [hget k] at hv2
      cases hm1k : mapGet (mergeRepositories m a.name
          (rs.filter (orgAllowed a))) k with
      | none => rw [hm1k] at hv2; simp at hv2
      | some v1 =>
        rw [hm1k] at hv2
        simp only [Option.map_some', Option.some_inj] at hv2
        have hv2eq : v2 = { v1 with openPullRequestCount :=
            ((((rs.filter (orgAllowed a)).filter candidateFilter).filter
              (fun r => r.full_name == k)).map
              (prCountOf env a)).foldl Nat.max v1.openPullRequestCount } := by
          exact hv2.symm
        have hobsA : observations env (pfx ++ [a]) k =
            observations env pfx k ++
            (((rs.filter (orgAllowed a)).filter candidateFilter).filter
              (fun r => r.full_name == k)).map (prCountOf env a) := by
          rw [observations_append, observations_singleton, hC]
        rw [mergeRepositories_get] at hm1k
        cases hmk : mapGet m k with
        | some v =>
          rw [hmk] at hm1k
          obtain ⟨hvfn, hvnd, hvmem, hvcount⟩ := hent k v hmk
          cases hfk : (rs.filter (orgAllowed a)).find?
              (fun r => r.full_name == k) with
          | some r =>
            rw [hfk] at hm1k
            simp only [Option.some_inj] at hm1k
            subst hm1k
            have hka : k ∈ discoveredNames env a :=
              (hfind_iff k).mp (by rw [hfk]; rfl)
            subst hv2eq
            refine ⟨hvfn, addIfAbsent_nodup _ _ hvnd, ?_, ?_⟩
            · intro n
              rw [mem_addIfAbsent, hvmem n, exists_mem_append_singleton]
              constructor
              · rintro (hp | rfl)
                · exact Or.inl hp
                · exact Or.inr ⟨rfl, hka⟩
              · rintro (hp | ⟨rfl, _⟩)
                · exact Or.inl hp
                · exact Or.inr rfl
            · rw [hobsA, List.foldl_append, ← hvcount]
          | none =>
            rw [hfk] at hm1k
            simp only [Option.some_inj] at hm1k
            subst hm1k
            have hka : k ∉ discoveredNames env a := by
              intro hka
              have := (hfind_iff k).mpr hka
              rw [hfk] at this
              simp at this
            have hmatchnil :
                ((rs.filter (orgAllowed a)).filter candidateFilter).filter
                  (fun r => r.full_name == k) = [] := by
              rw [List.filter_eq_nil_iff]
              intro r hr hp
              have hrD : r ∈ rs.filter (orgAllowed a) :=
                (List.mem_filter.mp hr).1
              have := List.find?_eq_none.mp hfk r hrD
              exact this hp
            subst hv2eq
            refine ⟨hvfn, hvnd, ?_, ?_⟩
            · intro n
              rw [hmatchnil]
              simp only [List.map_nil, List.foldl_nil]
              rw [hvmem n, exists_mem_append_singleton]
              constructor
              · exact fun hp => Or.inl hp
              · rintro (hp | ⟨_, hka'⟩)
                · exact hp
                · exact absurd hka' hka
            · rw [hobsA, hmatchnil, List.foldl_append, ← hvcount]
        | none =>
          rw [hmk] at hm1k
          cases hfk : (rs.filter (orgAllowed a)).find?
              (fun r => r.full_name == k) with
          | none => rw [hfk] at hm1k; simp at hm1k
          | some r =>
            rw [hfk] at hm1k
            simp only [Option.some_inj] at hm1k
            subst hm1k
            have hrk : r.full_name = k := by
              simpa using List.find?_some hfk
            have hka : k ∈ discoveredNames env a :=
              (hfind_iff k).mp (by rw [hfk]; rfl)
            have hnotpfx : ¬∃ x ∈ pfx, k ∈ discoveredNames env x := by
              intro hp
              have := (hiff k).mpr hp
              rw [hmk] at this
              simp at this
            have hobsnil : observations env pfx k = [] := by
              rw [List.eq_nil_iff_forall_not_mem]
              intro x hx
              obtain ⟨a', ha', hx'⟩ := List.mem_flatMap.mp hx
              obtain ⟨r', hr', _⟩ := List.mem_map.mp hx'
              have hr'2 := List.mem_filter.mp hr'
              have hr'disc : r' ∈ discoveredRepos env a' :=
                (List.mem_filter.mp hr'2.1).1
              refine hnotpfx ⟨a', ha', ?_⟩
              rw [mem_discoveredNames]
              exact ⟨r', hr'disc, by simpa using hr'2.2⟩
            subst hv2eq
            refine ⟨hrk, by simp [seedRepository], ?_, ?_⟩
            · intro n
              simp only [seedRepository, List.mem_singleton]
              rw [exists_mem_append_singleton]
              constructor
              · rintro rfl
                exact Or.inr ⟨rfl, hka⟩
              · rintro (⟨x, hx, hnk⟩ | ⟨rfl, _⟩)
                · exact absurd ⟨x, hx, hnk.2⟩ hnotpfx
                · rfl
            · rw [hobsA, hobsnil]
              simp [seedRepository]
  · -- the pull-request-map invariant
    have hbatches :
        ((((rs.filter (orgAllowed a)).filter candidateFilter).map
          (fun r => (prsOf env a r).map (toDashboardPR r a.name))).foldl
            (fun pm batch => batch.foldl insertIfAbsent pm) pm) =
        (accountSightings env a).foldl insertIfAbsent pm := by
      rw [foldl_batches_eq_flatten]
      congr 1
      simp only [accountSightings, hC]
      rfl
    rw [hbatches]
    have hsplit : allSightings env (pfx ++ [a]) =
        allSightings env pfx ++ accountSightings env a := by
      rw [allSightings_append, allSightings_singleton]
    rw [hsplit]
    exact foldl_insertIfAbsent_inv _ pm _ hpm

/-! ## Folding the step lemma over the whole account list -/

theorem repoMapInv_nil (env : Env) : RepoMapInv env [] [] := by
  refine ⟨by simp, ?_, ?_⟩
  · intro k
    simp [mapGet]
  · intro k v h
    simp [mapGet] at h

theorem prInv_nil (env : Env) : PRInv [] (allSightings env []) := by
  refine ⟨by simp, ?_, ?_⟩
  · intro k v h
    simp [mapGet] at h
  · intro s hs
    simp [allSightings] at hs

theorem processAccounts_inv (env : Env) :
    ∀ (rest pfx : List Account) (m : RepoMap) (pm : PRMap),
    RepoMapInv env pfx m → PRInv pm (allSightings env pfx) →
    (∀ a ∈ rest, accountOk env a) →
    ∃ m2 pm2,
      rest.foldlM (processAccount env) (m, pm) = .ok (m2, pm2) ∧
      RepoMapInv env (pfx ++ rest) m2 ∧
      PRInv pm2 (allSightings env (pfx ++ rest)) := by
  intro rest
  induction rest with
  | nil =>
    intro pfx m pm hm hpm _
    exact ⟨m, pm, rfl, by simpa using hm, by simpa using hpm⟩
  | cons a rest ih =>
    intro pfx m pm hm hpm hok
    obtain ⟨m1, pm1, hstep, hm1, hpm1⟩ := processAccount_step env a m pm pfx
      hm hpm (hok a (List.mem_cons_self _ _))
    obtain ⟨m2, pm2, hfold, hm2, hpm2⟩ := ih (pfx ++ [a]) m1 pm1 hm1 hpm1
      (fun x hx => hok x (List.mem_cons_of_mem _ hx))
    refine ⟨m2, pm2, ?_, ?_, ?_⟩
    · rw [List.foldlM_cons, hstep]
      simpa [Bind.bind, Except.bind] using hfold
    · simpa [List.append_assoc] using hm2
    · simpa [List.append_assoc] using hpm2

theorem fetchDashboard_unfold (env : Env) (accounts : List Account)
    (cp : String) (w : List String) :
    fetchDashboardPullRequests env accounts cp w =
      (accounts.foldlM (processAccount env) ([], [])).bind (fun x =>
        .ok { configPath := cp, warnings := w,
              pullRequests := x.2.map (fun kv => kv.2),
              repositories := x.1.map (fun kv => finalizeRepository kv.2) }) := by
  unfold fetchDashboardPullRequests
  cases accounts.foldlM (processAccount env) ([], []) <;> rfl

/-- A successful run: the returned data is the two invariant-satisfying maps
materialized. -/
theorem fetchDashboard_ok (env : Env) (accounts : List Account)
    (cp : String) (w : List String) (hok : runOk env accounts) :
    ∃ m pm,
      RepoMapInv env accounts m ∧
      PRInv pm (allSightings env accounts) ∧
      fetchDashboardPullRequests env accounts cp w = .ok
        { configPath := cp, warnings := w,
          pullRequests := pm.map (fun kv => kv.2),
          repositories := m.map (fun kv => finalizeRepository kv.2) } := by
  obtain ⟨m, pm, hfold, hm, hpm⟩ := processAccounts_inv env accounts [] [] []
    (repoMapInv_nil env) (prInv_nil env) hok
  refine ⟨m, pm, by simpa using hm, by simpa using hpm, ?_⟩
  rw [fetchDashboard_unfold, hfold]
  rfl

/-! ## Success is equivalent to all remote calls succeeding -/

theorem processAccount_isOk_iff (env : Env) (st : RepoMap × PRMap)
    (a : Account) :
    (∃ st2, processAccount env st a = .ok st2) ↔ accountOk env a := by
  cases hrs : env.listAccessibleRepos a.token with
  | error e =>
    constructor
    · rintro ⟨st2, h⟩
      rw [processAccount_error_discovery env st a e hrs] at h
      exact absurd h (by simp)
    · rintro ⟨hd, _⟩
      rw [hrs] at hd
      simp [Except.isOk, Except.toBool] at hd
  | ok rs =>
    have hC : candidateRepos env a =
        (rs.filter (orgAllowed a)).filter candidateFilter := by
      rw [candidateRepos, discoveredRepos_ok env a rs hrs]
    constructor
    · rintro ⟨st2, h⟩
      refine ⟨by rw [hrs]; rfl, ?_⟩
      rw [hC]
      refine (fetchStage_isOk_iff env a _
        (mergeRepositories st.1 a.name (rs.filter (orgAllowed a)))).mp ?_
      cases hfs : fetchStage env a
          (mergeRepositories st.1 a.name (rs.filter (orgAllowed a)))
          ((rs.filter (orgAllowed a)).filter candidateFilter) with
      | error e =>
        rw [processAccount_error_fetch env st a rs e hrs hfs] at h
        exact absurd h (by simp)
      | ok p => exact ⟨p, rfl⟩
    · rintro ⟨_, hcands⟩
      rw [hC] at hcands
      obtain ⟨⟨m2, batches⟩, hfs⟩ := (fetchStage_isOk_iff env a
        ((rs.filter (orgAllowed a)).filter candidateFilter)
        (mergeRepositories st.1 a.name (rs.filter (orgAllowed a)))).mpr hcands
      exact ⟨_, processAccount_ok_unfold env st a rs hrs m2 batches hfs⟩

theorem foldlM_processAccount_isOk_iff (env : Env) :
    ∀ (accs : List Account) (st : RepoMap × PRMap),
    (∃ st2, accs.foldlM (processAccount env) st = .ok st2) ↔
      runOk env accs := by
  intro accs
  induction accs with
  | nil =>
    intro st
    constructor
    · intro _ x hx
      simp at hx
    · intro _
      exact ⟨st, rfl⟩
  | cons a rest ih =>
    intro st
    constructor
    · rintro ⟨st2, h⟩
      rw [List.foldlM_cons] at h
      cases hpa : processAccount env st a with
      | error e =>
        rw [hpa] at h
        exact absurd h (by simp [Bind.bind, Except.bind])
      | ok st1 =>
        rw [hpa] at h
        simp only [Bind.bind, Except.bind] at h
        intro x hx
        rcases List.mem_cons.mp hx with rfl | hx'
        · exact (processAccount_isOk_iff env st x).mp ⟨st1, hpa⟩
        · exact ((ih st1).mp ⟨st2, h⟩) x hx'
    · intro hok
      obtain ⟨st1, hpa⟩ := (processAccount_isOk_iff env st a).mpr
        (hok a (List.mem_cons_self _ _))
      obtain ⟨st2, hrest⟩ := (ih st1).mpr
        (fun x hx => hok x (List.mem_cons_of_mem _ hx))
      refine ⟨st2, ?_⟩
      rw [List.foldlM_cons, hpa]
      simpa [Bind.bind, Except.bind] using hrest

theorem fetchDashboard_isOk_iff (env : Env) (accounts : List Account)
    (cp : String) (w : List String) :
    (∃ data, fetchDashboardPullRequests env accounts cp w = .ok data) ↔
      runOk env accounts := by
  rw [← foldlM_processAccount_isOk_iff env accounts ([], [])]
  rw [fetchDashboard_unfold]
  constructor
  · rintro ⟨data, h⟩
    cases hf : accounts.foldlM (processAccount env) ([], []) with
    | error e =>
      rw [hf] at h
      exact absurd h (by simp [Except.bind])
    | ok st => exact ⟨st, rfl⟩
  · rintro ⟨st, hf⟩
    rw [hf]
    exact ⟨_, rfl⟩

deriving instance DecidableEq for Except

/-! ## A concrete witness environment: the spec's end-to-end example
(account "A", organization "acme", repository `acme/widgets` with one open
pull request #7 by alice). -/

/-- The single open pull request of the witness repository. -/
def wPR : RepoPullRequest :=
  { number := 7, title := "Fix bug", html_url := "https://example.test/pr/7",
    draft := false, created_at := "2024-01-01T00:00:00Z",
    user := some { login := "alice" } }

/-- The witness account. -/
def accA : Account := { name := "A", organizations := ["acme"], token := "tokA" }

/-- An environment where every call the run makes succeeds. -/
def goodEnv : Env :=
  { listAccessibleRepos := fun t =>
      if t = "tokA" then .ok [wRepo] else .error "bad token"
    listRepoOpenPullRequests := fun o r t =>
      if o = "acme" ∧ r = "widgets" ∧ t = "tokA" then .ok [wPR]
      else .error "Not Found" }

/-- The same discovery, but every pull-request listing fails. -/
def badEnv : Env :=
  { listAccessibleRepos := goodEnv.listAccessibleRepos
    listRepoOpenPullRequests := fun _ _ _ => .error "GitHub API 404" }

/-- The expected output pull-request record of the witness run. -/
def wOutPR : DashboardPullRequest :=
  { id := "acme/widgets#7", organization := "acme", repository := "widgets",
    repositoryFullName := "acme/widgets", number := 7, title := "Fix bug",
    url := "https://example.test/pr/7", author := "alice", draft := false,
    createdAt := "2024-01-01T00:00:00Z", account := "A" }

/-- The expected output repository record of the witness run. -/
def wOutRepo : DashboardRepository :=
  { id := "acme/widgets", organization := "acme", name := "widgets",
    fullName := "acme/widgets", url := "https://example.test/acme/widgets",
    «private» := false, visibility := "public", archived := false,
    openIssuesCount := 2, openPullRequestCount := 1,
    updatedAt := "2024-01-02T00:00:00Z", defaultBranch := "main",
    accounts := ["A"] }

/-- The expected output of the witness run. -/
def wData : PullRequestDashboardData :=
  { configPath := "github-dashboard.yml", warnings := [],
    pullRequests := [wOutPR], repositories := [wOutRepo] }

/-- A page-level API whose page 2 fails. -/
def errApi (j : Nat) : Except String (List Unit) :=
  if j = 1 then .ok (List.replicate 100 ()) else .error "boom"

/-! ## The `stringLe` comparator is a total preorder agreeing with `≤` -/

theorem stringLe_iff (a b : String) : stringLe a b = true ↔ a ≤ b := by
  rw [stringLe, decide_eq_true_eq]
  exact String.le_iff_toList_le.symm

theorem stringLe_trans : ∀ (a b c : String),
    stringLe a b → stringLe b c → stringLe a c := by
  intro a b c hab hbc
  rw [stringLe_iff] at hab hbc ⊢
  exact le_trans hab hbc

theorem stringLe_total : ∀ (a b : String), stringLe a b || stringLe b a := by
  intro a b
  rw [Bool.or_eq_true, stringLe_iff, stringLe_iff]
  exact le_total a b

/-! ## Shared extraction of the invariants from a successful run -/

theorem fetchDashboard_ok_inv (env : Env) (accounts : List Account)
    (cp : String) (w : List String) (data : PullRequestDashboardData)
    (h : fetchDashboardPullRequests env accounts cp w = .ok data) :
    ∃ (m : RepoMap) (pm : PRMap),
      RepoMapInv env accounts m ∧ PRInv pm (allSightings env accounts) ∧
      data.configPath = cp ∧ data.warnings = w ∧
      data.pullRequests = pm.map (fun kv => kv.2) ∧
      data.repositories = m.map (fun kv => finalizeRepository kv.2) := by
  have hrun := (fetchDashboard_isOk_iff env accounts cp w).mp ⟨data, h⟩
  obtain ⟨m, pm, hm, hpm, heq⟩ := fetchDashboard_ok env accounts cp w hrun
  rw [h] at heq
  have hdata := Except.ok.inj heq
  exact ⟨m, pm, hm, hpm, by rw [hdata], by rw [hdata], by rw [hdata],
    by rw [hdata]⟩

/-! ## Theorem: all-or-nothing failure (C5) -/

/-- C5: aggregation is all-or-nothing.  The top-level call returns a
successful dataset exactly when every remote call of the run (each
account's discovery and every candidate's pull-request listing) succeeds;
on success the complete dataset carries the configuration path and the
(possibly empty) warnings list through unchanged; and an error at any page
of a pagination loop (all earlier pages full) propagates out of the loop as
the loop's result. -/
theorem aggregation_all_or_nothing (env : Env) (accounts : List Account)
    (cp : String) (w : List String) :
    ((∃ data, fetchDashboardPullRequests env accounts cp w = .ok data) ↔
      runOk env accounts) ∧
    (∀ data, fetchDashboardPullRequests env accounts cp w = .ok data →
      data.configPath = cp ∧ data.warnings = w) ∧
    (∀ (api : Nat → Except String (List Unit)) (pages : Nat → List Unit)
        (k fuel : Nat) (e : String), 1 ≤ k → k ≤ fuel →
      (∀ j, 1 ≤ j → j < k →
        api j = .ok (pages j) ∧ PAGE_SIZE ≤ (pages j).length) →
      api k = .error e →
      paginate api fuel = some (.error e, List.range' 1 k)) := by
  refine ⟨fetchDashboard_isOk_iff env accounts cp w, ?_, ?_⟩
  · intro data hdata
    rw [fetchDashboard_unfold] at hdata
    cases hf : accounts.foldlM (processAccount env) ([], []) with
    | error e =>
      rw [hf] at hdata
      exact absurd hdata (by simp [Except.bind])
    | ok st =>
      rw [hf] at hdata
      simp only [Except.bind] at hdata
      have hrec := Except.ok.inj hdata
      rw [← hrec]
      exact ⟨rfl, rfl⟩
  · intro api pages k fuel e h1 h2 hbefore herr
    have h := paginateGo_error api pages k e herr fuel 1 [] [] h1 (by omega)
      hbefore
    have hk : k + 1 - 1 = k := by omega
    rw [hk] at h
    simpa [paginate] using h

unseal List.merge List.mergeSort in
/-- Witness for C5: the all-good environment yields the full dataset; an
environment whose pull-request listings fail yields no dataset at all; a
failing page 2 poisons the pagination loop. -/
theorem aggregation_all_or_nothing_witness :
    fetchDashboardPullRequests goodEnv [accA] "github-dashboard.yml" [] =
      .ok wData ∧
    (∀ data, fetchDashboardPullRequests badEnv [accA]
      "github-dashboard.yml" [] ≠ .ok data) ∧
    paginate errApi 5 = some (.error "boom", [1, 2]) := by
  refine ⟨by decide, ?_, ?_⟩
  · intro data hdata
    have hok := (aggregation_all_or_nothing badEnv [accA]
      "github-dashboard.yml" []).1.mp ⟨data, hdata⟩
    revert hok
    unfold runOk accountOk
    decide
  · have h := (aggregation_all_or_nothing badEnv [accA]
      "github-dashboard.yml" []).2.2 errApi mockPages 2 5 "boom"
      (by decide) (by decide)
      (fun j hj1 hj2 => by
        interval_cases j
        exact ⟨rfl, by simp [mockPages, PAGE_SIZE]⟩)
      rfl
    exact h.trans (by decide)

/-! ## Theorem: union of visibility (C1) -/

/-- C1: the final merged repository collection has exactly one entry per
unique full name, its key set is the set-union of the full names discovered
by each account, and each merged repository's `accounts` field is the
sorted, deduplicated list of every account name that discovered it. -/
theorem merged_repositories_union (env : Env) (accounts : List Account)
    (cp : String) (w : List String) (data : PullRequestDashboardData)
    (h : fetchDashboardPullRequests env accounts cp w = .ok data) :
    (data.repositories.map (fun r => r.fullName)).Nodup ∧
    (∀ k, (∃ r ∈ data.repositories, r.fullName = k) ↔
      ∃ a ∈ accounts, k ∈ discoveredNames env a) ∧
    (∀ r ∈ data.repositories,
      List.Sorted (· ≤ ·) r.accounts ∧ r.accounts.Nodup ∧
      (∀ n, n ∈ r.accounts ↔
        ∃ a ∈ accounts, a.name = n ∧ r.fullName ∈ discoveredNames env a)) := by
  obtain ⟨m, pm, hm, hpm, hcp, hw, hprs, hrepos⟩ :=
    fetchDashboard_ok_inv env accounts cp w data h
  obtain ⟨hnd, hiff, hent⟩ := hm
  have hmem_entry : ∀ kv ∈ m, RepoEntryInv env accounts kv.1 kv.2 := by
    intro kv hkv
    exact hent kv.1 kv.2 (mapGet_of_mem_nodup hnd hkv)
  refine ⟨?_, ?_, ?_⟩
  · rw [hrepos, List.map_map]
    have hmapeq : m.map ((fun r => r.fullName) ∘
        (fun kv => finalizeRepository kv.2)) = m.map Prod.fst :=
      List.map_eq_map_iff.mpr (fun kv hkv => (hmem_entry kv hkv).1)
    rw [hmapeq]
    exact hnd
  · intro k
    constructor
    · rintro ⟨r, hr, hrk⟩
      rw [hrepos] at hr
      obtain ⟨kv, hkv, hrv⟩ := List.mem_map.mp hr
      have hfn : kv.1 = k := by
        rw [← hrk, ← hrv]
        exact ((hmem_entry kv hkv).1).symm
      rw [← hfn]
      exact (hiff kv.1).mp ((mapGet_isSome_iff m kv.1).mpr
        (List.mem_map.mpr ⟨kv, hkv, rfl⟩))
    · intro hex
      have hsome := (hiff k).mpr hex
      obtain ⟨v, hv⟩ := Option.isSome_iff_exists.mp hsome
      refine ⟨finalizeRepository v, ?_, ?_⟩
      · rw [hrepos]
        exact List.mem_map.mpr ⟨(k, v), mem_of_mapGet_eq_some hv, rfl⟩
      · exact (hent k v hv).1
  · intro r hr
    rw [hrepos] at hr
    obtain ⟨kv, hkv, hrv⟩ := List.mem_map.mp hr
    obtain ⟨hfn, hvnd, hvmem, _⟩ := hmem_entry kv hkv
    subst hrv
    have hacc : (finalizeRepository kv.2).accounts =
        kv.2.accounts.mergeSort stringLe := rfl
    refine ⟨?_, ?_, ?_⟩
    · rw [hacc]
      have hp := List.sorted_mergeSort stringLe_trans stringLe_total
        kv.2.accounts
      exact List.Pairwise.imp (fun hab => (stringLe_iff _ _).mp hab) hp
    · rw [hacc]
      exact (List.mergeSort_perm kv.2.accounts stringLe).nodup_iff.mpr hvnd
    · intro n
      rw [hacc, (List.mergeSort_perm kv.2.accounts stringLe).mem_iff]
      rw [show (finalizeRepository kv.2).fullName = kv.1 from hfn]
      exact hvmem n

unseal List.merge List.mergeSort in
/-- Witness for C1: the witness run produces one entry for `acme/widgets`
with `accounts = ["A"]`, sorted and deduplicated. -/
theorem merged_repositories_union_witness :
    fetchDashboardPullRequests goodEnv [accA] "github-dashboard.yml" [] =
      .ok wData ∧
    (wData.repositories.map (fun r => r.fullName)).Nodup ∧
    (∀ k, (∃ r ∈ wData.repositories, r.fullName = k) ↔
      ∃ a ∈ [accA], k ∈ discoveredNames goodEnv a) := by
  have hw : fetchDashboardPullRequests goodEnv [accA]
      "github-dashboard.yml" [] = .ok wData := by decide
  have h := merged_repositories_union goodEnv [accA]
    "github-dashboard.yml" [] wData hw
  exact ⟨hw, h.1, h.2.1⟩

/-! ## Theorem: running-maximum pull-request count (C7) -/

/-- C7: `openPullRequestCount` is updated by taking the maximum of the
current value and each newly observed per-account count — so each update is
monotone non-decreasing — and its final value equals the maximum over all
per-account observations for that repository (starting from the initial
zero), i.e. the fold of `Nat.max` over the full observation sequence. -/
theorem openPullRequestCount_running_max (env : Env)
    (accounts : List Account) (cp : String) (w : List String)
    (data : PullRequestDashboardData)
    (h : fetchDashboardPullRequests env accounts cp w = .ok data) :
    (∀ (mm : RepoMap) (k : String) (c : Nat)
        (e : MutableDashboardRepository),
      mapGet mm k = some e →
      mapGet (updateCount mm k c) k =
        some { e with
          openPullRequestCount := Nat.max e.openPullRequestCount c } ∧
      e.openPullRequestCount ≤ Nat.max e.openPullRequestCount c) ∧
    (∀ r ∈ data.repositories,
      r.openPullRequestCount =
        (observations env accounts r.fullName).foldl Nat.max 0) := by
  constructor
  · intro mm k c e he
    constructor
    · rw [updateCount, mapGet_update_self, he]
      rfl
    · exact Nat.le_max_left _ _
  · obtain ⟨m, pm, hm, hpm, hcp, hw, hprs, hrepos⟩ :=
      fetchDashboard_ok_inv env accounts cp w data h
    obtain ⟨hnd, hiff, hent⟩ := hm
    intro r hr
    rw [hrepos] at hr
    obtain ⟨kv, hkv, hrv⟩ := List.mem_map.mp hr
    obtain ⟨hfn, _, _, hcount⟩ := hent kv.1 kv.2
      (mapGet_of_mem_nodup hnd hkv)
    subst hrv
    rw [show (finalizeRepository kv.2).openPullRequestCount =
      kv.2.openPullRequestCount from rfl]
    rw [show (finalizeRepository kv.2).fullName = kv.1 from hfn]
    exact hcount

unseal List.merge List.mergeSort in
/-- Witness for C7: on the witness run, `acme/widgets` ends with
`openPullRequestCount = 1`, the fold of `Nat.max` over its single
observation; and one concrete update step takes the maximum. -/
theorem openPullRequestCount_running_max_witness :
    fetchDashboardPullRequests goodEnv [accA] "github-dashboard.yml" [] =
      .ok wData ∧
    wOutRepo.openPullRequestCount =
      (observations goodEnv [accA] "acme/widgets").foldl Nat.max 0 := by
  have hw : fetchDashboardPullRequests goodEnv [accA]
      "github-dashboard.yml" [] = .ok wData := by decide
  have h := (openPullRequestCount_running_max goodEnv [accA]
    "github-dashboard.yml" [] wData hw).2 wOutRepo (by decide)
  exact ⟨hw, h⟩

/-! ## Theorem: pull-request dedup is first-seen-wins (C2) -/

/-- C2: once a pull-request identity key is recorded, every later sighting
with that key is discarded even if its field values differ: every output
entry is exactly the first sighting with its key in global processing
order, keys are unique in the output, and every sighted key is represented. -/
theorem pullRequest_first_seen_wins (env : Env) (accounts : List Account)
    (cp : String) (w : List String) (data : PullRequestDashboardData)
    (h : fetchDashboardPullRequests env accounts cp w = .ok data) :
    (∀ p ∈ data.pullRequests,
      (allSightings env accounts).find? (fun s => s.id == p.id) = some p) ∧
    (∀ p q, p ∈ data.pullRequests → q ∈ data.pullRequests →
      p.id = q.id → p = q) ∧
    (∀ s ∈ allSightings env accounts,
      ∃ p ∈ data.pullRequests, p.id = s.id) := by
  obtain ⟨m, pm, hm, hpm, -, -, hprs, -⟩ :=
    fetchDashboard_ok_inv env accounts cp w data h
  obtain ⟨hnd, hval, hmemS⟩ := hpm
  have hmem_get : ∀ p ∈ data.pullRequests,
      ∃ k, mapGet pm k = some p ∧ p.id = k := by
    intro p hp
    rw [hprs] at hp
    obtain ⟨kv, hkv, hpv⟩ := List.mem_map.mp hp
    have hg := mapGet_of_mem_nodup hnd hkv
    subst hpv
    exact ⟨kv.1, hg, (hval kv.1 kv.2 hg).1⟩
  refine ⟨?_, ?_, ?_⟩
  · intro p hp
    obtain ⟨k, hg, hid⟩ := hmem_get p hp
    have hfind := (hval k p hg).2
    rw [hid]
    exact hfind
  · intro p q hp hq hpq
    obtain ⟨k1, hg1, hid1⟩ := hmem_get p hp
    obtain ⟨k2, hg2, hid2⟩ := hmem_get q hq
    have hk : k1 = k2 := by rw [← hid1, ← hid2, hpq]
    rw [hk] at hg1
    exact Option.some_inj.mp (hg1.symm.trans hg2)
  · intro s hs
    have hsome := hmemS s hs
    obtain ⟨v, hv⟩ := Option.isSome_iff_exists.mp hsome
    refine ⟨v, ?_, (hval s.id v hv).1⟩
    rw [hprs]
    exact List.mem_map.mpr ⟨(s.id, v), mem_of_mapGet_eq_some hv, rfl⟩

/-- Account "B": same organization, its own token. -/
def accB : Account := { name := "B", organizations := ["acme"], token := "tokB" }

/-- Account "B"'s sighting of pull request #7, with a different title. -/
def wPRB : RepoPullRequest := { wPR with title := "Fix bug (B copy)" }

/-- Both accounts see `acme/widgets`; each sees pull request #7, with
different field values. -/
def dualEnv : Env :=
  { listAccessibleRepos := fun t =>
      if t = "tokA" ∨ t = "tokB" then .ok [wRepo] else .error "bad token"
    listRepoOpenPullRequests := fun o r t =>
      if o = "acme" ∧ r = "widgets" ∧ t = "tokA" then .ok [wPR]
      else if o = "acme" ∧ r = "widgets" ∧ t = "tokB" then .ok [wPRB]
      else .error "Not Found" }

/-- The expected output repository of the two-account run: one entry seen by
both accounts. -/
def wOutRepoAB : DashboardRepository :=
  { wOutRepo with accounts := ["A", "B"] }

/-- The expected output of the two-account overlapping-visibility run: one
pull-request entry, attributed to account "A". -/
def wDataAB : PullRequestDashboardData :=
  { configPath := "github-dashboard.yml", warnings := [],
    pullRequests := [wOutPR], repositories := [wOutRepoAB] }

unseal List.merge List.mergeSort in
/-- Witness for C2: accounts "A" and "B" both see `acme/widgets#7` (with
different titles); the merged result has exactly the one entry contributed
by "A", the first account processed, and it is the first sighting. -/
theorem pullRequest_first_seen_wins_witness :
    fetchDashboardPullRequests dualEnv [accA, accB]
      "github-dashboard.yml" [] = .ok wDataAB ∧
    (allSightings dualEnv [accA, accB]).find?
      (fun s => s.id == wOutPR.id) = some wOutPR ∧
    wOutPR.account = "A" := by
  have hw : fetchDashboardPullRequests dualEnv [accA, accB]
      "github-dashboard.yml" [] = .ok wDataAB := by decide
  have h := (pullRequest_first_seen_wins dualEnv [accA, accB]
    "github-dashboard.yml" [] wDataAB hw).1 wOutPR (by decide)
  exact ⟨hw, h, rfl⟩

/-! ## Theorem: author fallback (C10) -/

/-- C10: every output pull request originates from a sighting built by
`toDashboardPR`; when the upstream `user` field is absent its `author`
field is the sentinel `"unknown"`, and when `user` is present `author` is
that user's login — so `author` is always a defined string. -/
theorem author_fallback_unknown (env : Env) (accounts : List Account)
    (cp : String) (w : List String) (data : PullRequestDashboardData)
    (h : fetchDashboardPullRequests env accounts cp w = .ok data) :
    ∀ p ∈ data.pullRequests,
      ∃ a ∈ accounts, ∃ r ∈ candidateRepos env a, ∃ u ∈ prsOf env a r,
        p = toDashboardPR r a.name u ∧
        (u.user = none → p.author = "unknown") ∧
        (∀ usr, u.user = some usr → p.author = usr.login) := by
  obtain ⟨m, pm, hm, hpm, -, -, hprs, -⟩ :=
    fetchDashboard_ok_inv env accounts cp w data h
  obtain ⟨hnd, hval, hmemS⟩ := hpm
  intro p hp
  rw [hprs] at hp
  obtain ⟨kv, hkv, hpv⟩ := List.mem_map.mp hp
  have hg := mapGet_of_mem_nodup hnd hkv
  subst hpv
  have hfind := (hval kv.1 kv.2 hg).2
  have hmem := List.mem_of_find?_eq_some hfind
  obtain ⟨a, ha, hs⟩ := List.mem_flatMap.mp hmem
  obtain ⟨r, hr, hu⟩ := List.mem_flatMap.mp hs
  obtain ⟨u, humem, hueq⟩ := List.mem_map.mp hu
  refine ⟨a, ha, r, hr, u, humem, hueq.symm, ?_, ?_⟩
  · intro hnone
    rw [← hueq]
    simp [toDashboardPR, hnone]
  · intro usr husr
    rw [← hueq]
    simp [toDashboardPR, husr]

/-- A pull request whose upstream `user` is null. -/
def wPRNull : RepoPullRequest :=
  { number := 9, title := "Anon change",
    html_url := "https://example.test/pr/9", draft := true,
    created_at := "2024-03-01T00:00:00Z", user := none }

/-- The witness environment whose only pull request has no user. -/
def nullEnv : Env :=
  { listAccessibleRepos := goodEnv.listAccessibleRepos
    listRepoOpenPullRequests := fun o r t =>
      if o = "acme" ∧ r = "widgets" ∧ t = "tokA" then .ok [wPRNull]
      else .error "Not Found" }

/-- The expected output record for the user-less pull request. -/
def wOutPRNull : DashboardPullRequest :=
  { id := "acme/widgets#9", organization := "acme", repository := "widgets",
    repositoryFullName := "acme/widgets", number := 9, title := "Anon change",
    url := "https://example.test/pr/9", author := "unknown", draft := true,
    createdAt := "2024-03-01T00:00:00Z", account := "A" }

/-- The expected output of the user-less run. -/
def wDataNull : PullRequestDashboardData :=
  { configPath := "github-dashboard.yml", warnings := [],
    pullRequests := [wOutPRNull],
    repositories := [{ wOutRepo with openPullRequestCount := 1 }] }

unseal List.merge List.mergeSort in
/-- Witness for C10: a run whose only pull request has a null `user`
produces `author = "unknown"`, with the provenance the theorem asserts. -/
theorem author_fallback_unknown_witness :
    fetchDashboardPullRequests nullEnv [accA] "github-dashboard.yml" [] =
      .ok wDataNull ∧
    wOutPRNull.author = "unknown" ∧
    (∃ a ∈ [accA], ∃ r ∈ candidateRepos nullEnv a, ∃ u ∈ prsOf nullEnv a r,
      wOutPRNull = toDashboardPR r a.name u) := by
  have hw : fetchDashboardPullRequests nullEnv [accA]
      "github-dashboard.yml" [] = .ok wDataNull := by decide
  have h := author_fallback_unknown nullEnv [accA]
    "github-dashboard.yml" [] wDataNull hw wOutPRNull (by decide)
  obtain ⟨a, ha, r, hr, u, hu, heq, -, -⟩ := h
  exact ⟨hw, rfl, a, ha, r, hr, u, hu, heq⟩

/-! ## Theorem: the candidate filter is exact (C8) -/

theorem fetchStage_congr (env env' : Env) (a : Account) :
    ∀ (cands : List OrgRepo) (m : RepoMap),
    (∀ r ∈ cands,
      env.listRepoOpenPullRequests r.owner.login r.name a.token =
        env'.listRepoOpenPullRequests r.owner.login r.name a.token) →
    fetchStage env a m cands = fetchStage env' a m cands := by
  intro cands
  induction cands with
  | nil => intro m _; rfl
  | cons repo rest ih =>
    intro m hag
    have hrepo := hag repo (List.mem_cons_self _ _)
    have hrest := fun r hr => hag r (List.mem_cons_of_mem _ hr)
    cases hps : env'.listRepoOpenPullRequests repo.owner.login repo.name
        a.token with
    | error e =>
      rw [fetchStage_cons_error env a m repo rest e (hrepo.trans hps),
        fetchStage_cons_error env' a m repo rest e hps]
    | ok ps =>
      rw [fetchStage_cons_ok env a m repo rest ps (hrepo.trans hps),
        fetchStage_cons_ok env' a m repo rest ps hps,
        ih (updateCount m repo.full_name ps.length) hrest]

theorem processAccount_congr (env env' : Env) (st : RepoMap × PRMap)
    (a : Account)
    (hd : env.listAccessibleRepos = env'.listAccessibleRepos)
    (hp : ∀ r ∈ candidateRepos env a,
      env.listRepoOpenPullRequests r.owner.login r.name a.token =
        env'.listRepoOpenPullRequests r.owner.login r.name a.token) :
    processAccount env st a = processAccount env' st a := by
  cases hrs : env.listAccessibleRepos a.token with
  | error e =>
    rw [processAccount_error_discovery env st a e hrs,
      processAccount_error_discovery env' st a e (by rw [← hd]; exact hrs)]
  | ok rs =>
    have hrs' : env'.listAccessibleRepos a.token = .ok rs := by
      rw [← hd]; exact hrs
    have hC : candidateRepos env a =
        (rs.filter (orgAllowed a)).filter candidateFilter := by
      rw [candidateRepos, discoveredRepos_ok env a rs hrs]
    have hfs := fetchStage_congr env env' a
      ((rs.filter (orgAllowed a)).filter candidateFilter)
      (mergeRepositories st.1 a.name (rs.filter (orgAllowed a)))
      (by rw [← hC]; exact hp)
    cases hfr : fetchStage env' a
        (mergeRepositories st.1 a.name (rs.filter (orgAllowed a)))
        ((rs.filter (orgAllowed a)).filter candidateFilter) with
    | error e =>
      rw [processAccount_error_fetch env st a rs e hrs (hfs.trans hfr),
        processAccount_error_fetch env' st a rs e hrs' hfr]
    | ok p =>
      obtain ⟨m2, batches⟩ := p
      rw [processAccount_ok_unfold env st a rs hrs m2 batches
          (hfs.trans hfr),
        processAccount_ok_unfold env' st a rs hrs' m2 batches hfr]

theorem foldlM_processAccount_congr (env env' : Env) :
    ∀ (accs : List Account) (st : RepoMap × PRMap),
    env.listAccessibleRepos = env'.listAccessibleRepos →
    (∀ a ∈ accs, ∀ r ∈ candidateRepos env a,
      env.listRepoOpenPullRequests r.owner.login r.name a.token =
        env'.listRepoOpenPullRequests r.owner.login r.name a.token) →
    accs.foldlM (processAccount env) st =
      accs.foldlM (processAccount env') st := by
  intro accs
  induction accs with
  | nil => intro st _ _; rfl
  | cons a rest ih =>
    intro st hd hp
    rw [List.foldlM_cons, List.foldlM_cons,
      processAccount_congr env env' st a hd (hp a (List.mem_cons_self _ _))]
    cases hpa : processAccount env' st a with
    | error e => rfl
    | ok st1 =>
      simp only [Bind.bind, Except.bind]
      exact ih st1 hd (fun x hx => hp x (List.mem_cons_of_mem _ hx))

/-- C8: for every account, the pull-request fetch stage is applied exactly
to the discovered repositories that are not archived, have issues enabled,
and have a positive reported open-issue count: membership in the candidate
list is equivalent to that conjunction, and the whole aggregation result is
unchanged by modifying the pull-request endpoint anywhere outside the
candidate repositories — so a repository failing the filter never has its
open pull requests fetched. -/
theorem candidate_filter_exact (env env' : Env) (accounts : List Account)
    (a : Account) (cp : String) (w : List String) :
    (∀ r, r ∈ candidateRepos env a ↔
      (r ∈ discoveredRepos env a ∧ r.archived = false ∧
        r.has_issues = true ∧ 0 < r.open_issues_count)) ∧
    (env.listAccessibleRepos = env'.listAccessibleRepos →
      (∀ x ∈ accounts, ∀ r ∈ candidateRepos env x,
        env.listRepoOpenPullRequests r.owner.login r.name x.token =
          env'.listRepoOpenPullRequests r.owner.login r.name x.token) →
      fetchDashboardPullRequests env accounts cp w =
        fetchDashboardPullRequests env' accounts cp w) := by
  constructor
  · intro r
    rw [candidateRepos, List.mem_filter]
    constructor
    · rintro ⟨hd, hf⟩
      simp only [candidateFilter, Bool.and_eq_true, Bool.not_eq_true',
        decide_eq_true_eq] at hf
      exact ⟨hd, hf.1.1, hf.1.2, hf.2⟩
    · rintro ⟨hd, h1, h2, h3⟩
      refine ⟨hd, ?_⟩
      simp [candidateFilter, h1, h2, h3]
  · intro hd hp
    rw [fetchDashboard_unfold, fetchDashboard_unfold,
      foldlM_processAccount_congr env env' accounts ([], []) hd hp]

/-- Same environment as `goodEnv` except that the pull-request endpoint
behaves differently outside the candidate repositories. -/
def altEnv : Env :=
  { listAccessibleRepos := goodEnv.listAccessibleRepos
    listRepoOpenPullRequests := fun o r t =>
      if o = "acme" ∧ r = "widgets" ∧ t = "tokA" then .ok [wPR]
      else .error "different elsewhere" }

/-- Witness for C8: changing the pull-request endpoint outside the
candidates does not change the run, and the witness repository passes the
filter. -/
theorem candidate_filter_exact_witness :
    fetchDashboardPullRequests goodEnv [accA] "github-dashboard.yml" [] =
      fetchDashboardPullRequests altEnv [accA] "github-dashboard.yml" [] ∧
    wRepo ∈ candidateRepos goodEnv accA := by
  have h := candidate_filter_exact goodEnv altEnv [accA] accA
    "github-dashboard.yml" []
  refine ⟨h.2 rfl ?_, ?_⟩
  · intro x hx r hr
    rw [List.mem_singleton] at hx
    subst hx
    have hcr : candidateRepos goodEnv accA = [wRepo] := by decide
    rw [hcr, List.mem_singleton] at hr
    subst hr
    decide
  · exact (h.1 wRepo).mpr ⟨by decide, rfl, rfl, by decide⟩

end GithubChan
